import Mathlib

/-!
The time-field expander `parseTimeField` of cron-parser, the line parser
`parseInput` and the normalisation `sanitizeInput`.

A shallow embedding of `src/app.go`.  Go strings are modelled as `List Char`
(the text of a valid UTF-8 string, one `Char` per code point; the digits, the
signs and the separators that the parser looks at are all ASCII), Go `int` as
`Int` (the only place where the 64-bit width matters is
`strconv.Atoi`, which checks it explicitly), the `map[int]bool` working set
as a duplicate-free list of keys, and `sort.Sort` as a sort of that list.
A Go function returning `(value, error)` is modelled with `Except`; the
failure side separates an error value that is returned from a run-time panic.
The file system that `os.Stat` consults is a parameter of `parseInput`.
-/

namespace CronParser

/-! ## Data model -/

/-- Go: `type CronField int`. -/
abbrev CronField := Int

def MinutesField : CronField := 0
def HoursField : CronField := 1
def MonthDaysField : CronField := 2
def MonthsField : CronField := 3
def WeekDaysField : CronField := 4

/-- The `Err` field of a `*strconv.NumError`. -/
inductive NumErr where
  | ErrSyntax
  | ErrRange
  deriving DecidableEq, Repr

/-- The error values built in `app.go`, one constructor per `errors.New` site
(the numbers are the ones formatted into the message), together with the
`*strconv.NumError` that `strconv.Atoi` returns and the error of `os.Stat`. -/
inductive CronError where
  /-- "Invalid Cron field type" -/
  | invalidFieldType
  /-- "Range error: start cannot be greater than end - start > end" -/
  | rangeOrder (start stop : Int)
  /-- "Range error: invalid start of range - start < lo (minimum value)" -/
  | rangeStart (start lo : Int)
  /-- "Range error: invalid end of range - end > hi (maximum value)" -/
  | rangeEnd (stop hi : Int)
  /-- "Frequency error: invalid frequency - frequency > hi (maximum value)" -/
  | frequency (frequency hi : Int)
  /-- "Invalid value - number < lo (minimum value)" -/
  | valueMin (number lo : Int)
  /-- "Invalid value - number > hi (maximum value)" -/
  | valueMax (number hi : Int)
  /-- `&NumError{Func: "Atoi", Num: num, Err: err}` -/
  | atoi (num : List Char) (err : NumErr)
  /-- "Malformed input. Expected 6 fields delimited by a space, got n" -/
  | fieldCount (got : Nat)
  /-- "Command cannot be empty" -/
  | emptyCommand
  /-- The error of `os.Stat`: `&PathError{Op: "stat", Path: path, Err: errno}` -/
  | stat (path : List Char) (errno : Nat)
  deriving DecidableEq, Repr

/-- How a call that does not produce its value ends: with a returned error
value, or with the run-time panic "integer divide by zero". -/
inductive Failure where
  | returned (e : CronError)
  | panicDivideByZero
  deriving DecidableEq, Repr

deriving instance DecidableEq for Except

/-! ## Library functions used by `parseTimeField` -/

/-- The regular-expression class `\d` (RE2: ASCII digits only). -/
def isDigit (c : Char) : Bool := decide (48 ≤ c.toNat) && decide (c.toNat ≤ 57)

/-- The text matched by `\d\d?` anchored on both sides: one or two digits. -/
def isDigits12 (s : List Char) : Bool :=
  (decide (s.length = 1) || decide (s.length = 2)) && s.all isDigit

/-- Go `strings.Split(s, sep)` for a one-character separator: the pieces
between the occurrences of `sep`; the empty string gives one empty piece. -/
def Split : List Char → Char → List (List Char)
  | [], _ => [[]]
  | c :: cs, sep =>
    if c = sep then [] :: Split cs sep
    else
      match Split cs sep with
      | [] => [[c]]
      | piece :: pieces => (c :: piece) :: pieces

/-- The `ParseUint` digit loop of `strconv` in base 10 with 64 bits: a byte
that is not a digit is a syntax error, an overflow of `uint64` is a range
error, whichever comes first from the left. -/
def parseUintLoop : List Char → Nat → Except NumErr Nat
  | [], n => .ok n
  | c :: cs, n =>
    if !isDigit c then .error .ErrSyntax
    else if n ≥ (2 ^ 64 - 1) / 10 + 1 then .error .ErrRange
    else
      let n1 := n * 10 + (c.toNat - 48)
      if n1 > 2 ^ 64 - 1 then .error .ErrRange
      else parseUintLoop cs n1

/-- Go `strconv.Atoi` on a 64-bit platform (through `ParseInt(s, 10, 0)`; the
fast path for short strings computes the same): an optional sign, then at
least one decimal digit, the value within `[-2^63, 2^63 - 1]`. -/
def Atoi (s : List Char) : Except CronError Int :=
  if s = [] then .error (.atoi s .ErrSyntax)
  else
    let neg := decide (s.head? = some '-')
    let body := if s.head? = some '+' ∨ s.head? = some '-' then s.drop 1 else s
    if body = [] then .error (.atoi s .ErrSyntax)
    else
      match parseUintLoop body 0 with
      | .error e => .error (.atoi s e)
      | .ok un =>
        if !neg && decide (un ≥ 2 ^ 63) then .error (.atoi s .ErrRange)
        else if neg && decide (un > 2 ^ 63) then .error (.atoi s .ErrRange)
        else .ok (if neg then -(un : Int) else (un : Int))

/-- The submatches of `rangeRe = ^(\d\d?)-(\d\d?)$` on `s`: the two captured
groups when the whole of `s` matches (the pattern is anchored, so
`FindAllStringSubmatch` has at most one match), `none` otherwise. -/
def rangeRe (s : List Char) : Option (List Char × List Char) :=
  match s.span (fun c => c != '-') with
  | (a, '-' :: b) => if isDigits12 a && isDigits12 b then some (a, b) else none
  | _ => none

/-- The submatch of `wildcardRe = ^\*(/\d\d?)?$` on `s`: group 1 (empty when
the optional group did not take part) when the whole of `s` matches. -/
def wildcardRe (s : List Char) : Option (List Char) :=
  match s with
  | ['*'] => some []
  | '*' :: '/' :: ds => if isDigits12 ds then some ('/' :: ds) else none
  | _ => none

/-- The working set `expanded map[int]bool`: its keys, without repetition. -/
abbrev IntSet := List Int

/-- Go: `expanded[k] = true`. -/
def setKey (expanded : IntSet) (k : Int) : IntSet :=
  if k ∈ expanded then expanded else expanded ++ [k]

/-- The values taken by `i` in `for i := a; i <= b; i++`. -/
def loopRange (a b : Int) : List Int :=
  (List.range (b + 1 - a).toNat).map (fun (k : Nat) => a + (k : Int))

/-- Go: `sort.Sort(sort.IntSlice(r))`. -/
def sortInts (r : List Int) : List Int := r.insertionSort (fun a b => a ≤ b)

/-! ## `app.go` -/

/-- Go `getValidRange`: the pair `(validRange[0], validRange[1])`. -/
def getValidRange (fieldType : CronField) : Except CronError (Int × Int) :=
  if fieldType = MinutesField then .ok (0, 59)
  else if fieldType = HoursField then .ok (0, 23)
  else if fieldType = MonthDaysField then .ok (1, 31)
  else if fieldType = MonthsField then .ok (1, 12)
  else if fieldType = WeekDaysField then .ok (0, 7)
  else .error .invalidFieldType

/-- The body of the loop `for _, interval := range intervals` of
`parseTimeField` (lines 134-208): one sub-token is classified and its values
are put into `expanded`. -/
def expandInterval (validRange : Int × Int) (expanded : IntSet) (interval : List Char) :
    Except Failure IntSet :=
  match rangeRe interval with
  | some (g1, g2) =>
    match Atoi g1 with
    | .error e => .error (.returned e)
    | .ok start =>
      match Atoi g2 with
      | .error e => .error (.returned e)
      | .ok stop =>
        if stop < start then .error (.returned (.rangeOrder start stop))
        else if start < validRange.1 then .error (.returned (.rangeStart start validRange.1))
        else if stop > validRange.2 then .error (.returned (.rangeEnd stop validRange.2))
        else .ok ((loopRange start stop).foldl setKey expanded)
  | none =>
    match wildcardRe interval with
    | some g1 =>
      if g1.length > 0 then
        match Atoi (g1.drop 1) with
        | .error e => .error (.returned e)
        | .ok frequency =>
          if frequency > validRange.2 then
            .error (.returned (.frequency frequency validRange.2))
          else if frequency = 0 then .error .panicDivideByZero
          else
            let maxNFreq := Int.tdiv validRange.2 frequency
            let expanded := setKey expanded validRange.1
            .ok ((loopRange validRange.1 maxNFreq).foldl
              (fun m i => setKey m (i * frequency + validRange.1)) expanded)
      else .ok ((loopRange validRange.1 validRange.2).foldl setKey expanded)
    | none =>
      match Atoi interval with
      | .error e => .error (.returned e)
      | .ok number =>
        if number < validRange.1 then .error (.returned (.valueMin number validRange.1))
        else if number > validRange.2 then .error (.returned (.valueMax number validRange.2))
        else .ok (setKey expanded number)

/-- The loop `for _, interval := range intervals`: the first failure ends it. -/
def expandIntervals (validRange : Int × Int) : List (List Char) → IntSet → Except Failure IntSet
  | [], expanded => .ok expanded
  | interval :: intervals, expanded =>
    match expandInterval validRange expanded interval with
    | .error e => .error e
    | .ok expanded => expandIntervals validRange intervals expanded

/-- Lines 221-224 of `parseTimeField`: for a week-days field whose sorted
values start with 0 and end with 7, the leading 0 is removed. -/
def foldSunday (fieldType : CronField) (r : List Int) : List Int :=
  if fieldType = WeekDaysField ∧ r.length ≥ 2 ∧ r.head? = some 0 ∧ r.getLast? = some 7 then
    r.drop 1
  else r

/-- Go `parseTimeField`. -/
def parseTimeField (input : List Char) (fieldType : CronField) : Except Failure (List Int) :=
  let intervals := Split input ','
  match getValidRange fieldType with
  | .error e => .error (.returned e)
  | .ok validRange =>
    match expandIntervals validRange intervals [] with
    | .error e => .error e
    | .ok expanded => .ok (foldSunday fieldType (sortInts expanded))

/-! ## `sanitizeInput` and `parseInput` -/

/-- The regular-expression class `\s` (RE2: tab, line feed, form feed,
carriage return and space). -/
def isReSpace (c : Char) : Bool :=
  c = '\t' || c = '\n' || c.toNat = 12 || c = '\r' || c = ' '

/-- Go `unicode.IsSpace`, the characters that `strings.TrimSpace` removes. -/
def isSpace (c : Char) : Bool :=
  let n := c.toNat
  (decide (9 ≤ n) && decide (n ≤ 13)) || n = 32 || n = 0x85 || n = 0xA0 || n = 0x1680 ||
    (decide (0x2000 ≤ n) && decide (n ≤ 0x200A)) || n = 0x2028 || n = 0x2029 || n = 0x202F ||
    n = 0x205F || n = 0x3000

/-- Go `tabs.ReplaceAllString(input, " ")` for `tabs = (\t+)`: every maximal
run of tabs becomes one space.  The flag says that the previous character
was a tab of the run being replaced. -/
def replaceTabs : Bool → List Char → List Char
  | _, [] => []
  | inRun, c :: cs =>
    if c = '\t' then
      if inRun then replaceTabs true cs else ' ' :: replaceTabs true cs
    else c :: replaceTabs false cs

/-- Go `multiSpaces.ReplaceAllString(input, " ")` for `multiSpaces = \s\s+`:
every maximal run of two or more `\s` characters becomes one space, a single
`\s` character stays.  The flag says that the previous character belonged to
a run being replaced. -/
def replaceMultiSpaces : Bool → List Char → List Char
  | _, [] => []
  | true, c :: cs =>
    if isReSpace c then replaceMultiSpaces true cs else c :: replaceMultiSpaces false cs
  | false, c :: cs =>
    if isReSpace c && (match cs with
        | d :: _ => isReSpace d
        | [] => false) then ' ' :: replaceMultiSpaces true cs
    else c :: replaceMultiSpaces false cs

/-- Go `strings.TrimSpace`. -/
def TrimSpace (s : List Char) : List Char := (s.dropWhile isSpace).rdropWhile isSpace

/-- Go `sanitizeInput`. -/
def sanitizeInput (input : List Char) : List Char :=
  let input := replaceTabs false input
  let input := replaceMultiSpaces false input
  TrimSpace input

/-- Go `type CronTab struct`. -/
structure CronTab where
  Command : List Char
  Minutes : List Int
  Hours : List Int
  MonthDays : List Int
  Months : List Int
  WeekDays : List Int
  deriving DecidableEq, Repr

/-- The file system as `os.Stat` sees it: `none` for a path that names an
accessible file, the error number of the failed lookup otherwise. -/
abbrev FileSystem := List Char → Option Nat

/-- Lines 250-266 of `parseInput`: the five time fields are parsed in the
order minute, hour, day of month, month, day of week; the first failure ends
the call. -/
def parseFields (command : List Char) (inputParts : List (List Char)) :
    Except Failure CronTab :=
  match parseTimeField (inputParts.getD 0 []) MinutesField with
  | .error e => .error e
  | .ok minutes =>
    match parseTimeField (inputParts.getD 1 []) HoursField with
    | .error e => .error e
    | .ok hours =>
      match parseTimeField (inputParts.getD 2 []) MonthDaysField with
      | .error e => .error e
      | .ok monthDays =>
        match parseTimeField (inputParts.getD 3 []) MonthsField with
        | .error e => .error e
        | .ok months =>
          match parseTimeField (inputParts.getD 4 []) WeekDaysField with
          | .error e => .error e
          | .ok weekDays =>
            .ok { Command := command, Minutes := minutes, Hours := hours,
                  MonthDays := monthDays, Months := months, WeekDays := weekDays }

/-- Go `parseInput`; the file system that `os.Stat` consults is a parameter. -/
def parseInput (fs : FileSystem) (input : List Char) : Except Failure CronTab :=
  let input := sanitizeInput input
  let inputParts := Split input ' '
  if inputParts.length ≠ 6 then .error (.returned (.fieldCount inputParts.length))
  else
    let command := inputParts.getD 5 []
    if command.length = 0 then .error (.returned .emptyCommand)
    else
      match fs command with
      | some errno => .error (.returned (.stat command errno))
      | none => parseFields command inputParts

/-- The failures that come out of `parseTimeField`: every one except the
three error values that `parseInput` builds itself. -/
def isFieldFailure : Failure → Bool
  | .returned (.fieldCount _) => false
  | .returned .emptyCommand => false
  | .returned (.stat _ _) => false
  | _ => true

/-- The failure of the first time field that does not parse, in the order
minute, hour, day of month, month, day of week; `none` when all five parse. -/
def firstFieldFailure (s1 s2 s3 s4 s5 : List Char) : Option Failure :=
  match parseTimeField s1 MinutesField with
  | .error f => some f
  | .ok _ =>
    match parseTimeField s2 HoursField with
    | .error f => some f
    | .ok _ =>
      match parseTimeField s3 MonthDaysField with
      | .error f => some f
      | .ok _ =>
        match parseTimeField s4 MonthsField with
        | .error f => some f
        | .ok _ =>
          match parseTimeField s5 WeekDaysField with
          | .error f => some f
          | .ok _ => none

/-- The value of a decimal numeral. -/
def digitsVal (s : List Char) : Nat := s.foldl (fun n c => n * 10 + (c.toNat - 48)) 0

/-- The set `{lo} ∪ {lo + m*n : 1 ≤ m ≤ floor(hi / n)}` that the specification
gives for the stepped wildcard `*/n`, as a predicate on `v`. -/
def SteppedSet (lo hi n v : Int) : Prop :=
  v = lo ∨ ∃ m : Int, 1 ≤ m ∧ m ≤ hi / n ∧ v = lo + m * n

/-- The shape of a signed decimal integer: an optional `+` or `-`, then one
or more digits. -/
def isSignedDecimal (s : List Char) : Bool :=
  match s with
  | '+' :: ds => !ds.isEmpty && ds.all isDigit
  | '-' :: ds => !ds.isEmpty && ds.all isDigit
  | ds => !ds.isEmpty && ds.all isDigit

/-- The ascending duplicate-free merge of two sequences. -/
def ascendingMerge (a b : List Int) : List Int := sortInts (a ++ b).dedup

/-- The values that the sub-tokens `toks` put into the working set, as a
predicate on `v`: some sub-token, expanded on its own, yields `v`. -/
def tokenValues (validRange : Int × Int) (toks : List (List Char)) (v : Int) : Prop :=
  ∃ tok ∈ toks, ∃ m, expandInterval validRange [] tok = .ok m ∧ v ∈ m

/-! ## The working set -/

theorem mem_setKey (m : IntSet) (k v : Int) : v ∈ setKey m k ↔ v ∈ m ∨ v = k := by
  unfold setKey
  split
  · constructor
    · intro h; exact Or.inl h
    · rintro (h | h)
      · exact h
      · subst h; assumption
  · simp

theorem nodup_setKey (m : IntSet) (k : Int) (h : m.Nodup) : (setKey m k).Nodup := by
  unfold setKey
  split
  · exact h
  · rename_i hk
    rw [List.nodup_append]
    refine ⟨h, List.nodup_singleton k, ?_⟩
    intro a ha hb
    simp only [List.mem_singleton] at hb
    subst hb
    exact hk ha

theorem mem_foldl_setKey (f : Int → Int) (l : List Int) (m : IntSet) (v : Int) :
    v ∈ l.foldl (fun m i => setKey m (f i)) m ↔ v ∈ m ∨ ∃ i ∈ l, v = f i := by
  induction l generalizing m with
  | nil => simp
  | cons a l ih =>
    rw [List.foldl_cons, ih, mem_setKey]
    constructor
    · rintro ((h | h) | ⟨i, hi, h⟩)
      · exact Or.inl h
      · exact Or.inr ⟨a, List.mem_cons_self _ _, h⟩
      · exact Or.inr ⟨i, List.mem_cons_of_mem _ hi, h⟩
    · rintro (h | ⟨i, hi, h⟩)
      · exact Or.inl (Or.inl h)
      · rcases List.mem_cons.mp hi with rfl | hi
        · exact Or.inl (Or.inr h)
        · exact Or.inr ⟨i, hi, h⟩

theorem nodup_foldl_setKey (f : Int → Int) (l : List Int) (m : IntSet) (h : m.Nodup) :
    (l.foldl (fun m i => setKey m (f i)) m).Nodup := by
  induction l generalizing m with
  | nil => exact h
  | cons a l ih =>
    rw [List.foldl_cons]
    exact ih _ (nodup_setKey m (f a) h)

theorem mem_loopRange (a b v : Int) : v ∈ loopRange a b ↔ a ≤ v ∧ v ≤ b := by
  unfold loopRange
  simp only [List.mem_map, List.mem_range]
  constructor
  · rintro ⟨k, hk, rfl⟩
    omega
  · rintro ⟨h1, h2⟩
    refine ⟨(v - a).toNat, ?_, ?_⟩ <;> omega

theorem sorted_loopRange (a b : Int) : (loopRange a b).Sorted (fun x y => x < y) := by
  unfold loopRange
  generalize (b + 1 - a).toNat = n
  unfold List.Sorted
  rw [List.pairwise_map]
  have h : (List.range n).Pairwise (fun x y => x < y) := List.pairwise_lt_range n
  exact h.imp (by intro x y hxy; omega)

/-! ## Sorting and the Sunday folding -/

theorem sorted_sortInts (m : List Int) (h : m.Nodup) :
    (sortInts m).Sorted (fun x y => x < y) := by
  have h1 : (sortInts m).Sorted (fun x y => x ≤ y) := List.sorted_insertionSort _ m
  have h2 : (sortInts m).Nodup := (List.perm_insertionSort _ m).nodup_iff.mpr h
  exact h1.lt_of_le h2

theorem mem_sortInts (m : List Int) (v : Int) : v ∈ sortInts m ↔ v ∈ m :=
  (List.perm_insertionSort _ m).mem_iff

/-- Two strictly ascending lists with the same elements are equal. -/
theorem eq_of_sorted_of_mem_iff (r s : List Int) (hr : r.Sorted (fun x y => x < y))
    (hs : s.Sorted (fun x y => x < y)) (h : ∀ v, v ∈ r ↔ v ∈ s) : r = s :=
  List.eq_of_perm_of_sorted ((List.perm_ext_iff_of_nodup hr.nodup hs.nodup).mpr h) hr hs

theorem sorted_foldSunday (fieldType : CronField) (r : List Int)
    (h : r.Sorted (fun x y => x < y)) : (foldSunday fieldType r).Sorted (fun x y => x < y) := by
  unfold foldSunday
  split
  · rw [List.drop_one]
    exact h.tail
  · exact h

/-- On a strictly ascending list whose values lie in `[0, 7]`, the test of
the folding step says that 0 and 7 are both present. -/
theorem foldSunday_test_iff (r : List Int) (h : r.Sorted (fun x y => x < y))
    (hb : ∀ v ∈ r, 0 ≤ v ∧ v ≤ 7) :
    (r.length ≥ 2 ∧ r.head? = some 0 ∧ r.getLast? = some 7) ↔ (0 ∈ r ∧ 7 ∈ r) := by
  constructor
  · rintro ⟨_, h0, h7⟩
    exact ⟨List.mem_of_mem_head? h0, List.mem_of_getLast?_eq_some h7⟩
  · rintro ⟨h0, h7⟩
    cases r with
    | nil => simp at h0
    | cons a t =>
      have ha := hb a (List.mem_cons_self _ _)
      have hat : ∀ y ∈ t, a < y := (List.pairwise_cons.mp h).1
      have ha0 : a = 0 := by
        rcases List.mem_cons.mp h0 with h0 | h0
        · exact h0.symm
        · have := hat 0 h0; omega
      subst ha0
      have h7t : (7 : Int) ∈ t := by
        rcases List.mem_cons.mp h7 with h7 | h7
        · omega
        · exact h7
      refine ⟨?_, rfl, ?_⟩
      · cases t with
        | nil => simp at h7t
        | cons b u => simp
      · obtain ⟨ys, x, hys⟩ : ∃ ys x, (0 : Int) :: t = ys ++ [x] := by
          rcases List.eq_nil_or_concat ((0 : Int) :: t) with hnil | ⟨ys, x, hx⟩
          · simp at hnil
          · exact ⟨ys, x, by simpa using hx⟩
        rw [hys, List.getLast?_concat]
        rw [hys] at h h7 hb
        have hx := hb x (by simp)
        have hlt : ∀ y ∈ ys, y < x := by
          intro y hy
          have := List.pairwise_append.mp h
          exact this.2.2 y hy x (by simp)
        rcases List.mem_append.mp h7 with h7 | h7
        · have := hlt 7 h7; omega
        · simp at h7; rw [h7]

/-- The elements of the folded list, on a strictly ascending list with
values in `[0, 7]` when the field is the week-days field. -/
theorem mem_foldSunday (fieldType : CronField) (r : List Int)
    (h : r.Sorted (fun x y => x < y))
    (hb : fieldType = WeekDaysField → ∀ v ∈ r, 0 ≤ v ∧ v ≤ 7) (v : Int) :
    v ∈ foldSunday fieldType r ↔ v ∈ r ∧ ¬ (fieldType = WeekDaysField ∧ v = 0 ∧ 7 ∈ r) := by
  unfold foldSunday
  split
  · rename_i hc
    obtain ⟨hft, hc⟩ := hc
    have h07 := (foldSunday_test_iff r h (hb hft)).mp hc
    obtain ⟨t, ht⟩ := List.head?_eq_some_iff.mp hc.2.1
    subst ht
    have hat : ∀ y ∈ t, (0 : Int) < y := (List.pairwise_cons.mp h).1
    simp only [List.drop_one, List.tail_cons, List.mem_cons]
    constructor
    · intro hv
      refine ⟨Or.inr hv, ?_⟩
      rintro ⟨_, hv0, _⟩
      have := hat v hv
      omega
    · rintro ⟨hv | hv, hn⟩
      · exact absurd ⟨hft, hv, List.mem_cons.mp h07.2⟩ hn
      · exact hv
  · rename_i hc
    constructor
    · intro hv
      refine ⟨hv, ?_⟩
      rintro ⟨hft, hv0, h7⟩
      subst hv0
      exact hc ⟨hft, (foldSunday_test_iff r h (hb hft)).mpr ⟨hv, h7⟩⟩
    · exact fun hv => hv.1

/-! ## Numerals, `Atoi` and the two patterns -/

theorem isDigit_iff (c : Char) : isDigit c = true ↔ 48 ≤ c.toNat ∧ c.toNat ≤ 57 := by
  simp [isDigit]

theorem isDigits12_cases (ds : List Char) (h : isDigits12 ds = true) :
    (∃ a, ds = [a] ∧ isDigit a = true) ∨
      (∃ a b, ds = [a, b] ∧ isDigit a = true ∧ isDigit b = true) := by
  unfold isDigits12 at h
  match ds, h with
  | [], h => simp at h
  | [a], h => left; exact ⟨a, rfl, by simpa using h⟩
  | [a, b], h => right; exact ⟨a, b, rfl, by simpa using h⟩
  | _ :: _ :: _ :: _, h => simp at h

theorem digitsVal_le (ds : List Char) (h : isDigits12 ds = true) : digitsVal ds ≤ 99 := by
  rcases isDigits12_cases ds h with ⟨a, rfl, ha⟩ | ⟨a, b, rfl, ha, hb⟩
  · rw [isDigit_iff] at ha
    simp only [digitsVal, List.foldl]
    omega
  · rw [isDigit_iff] at ha hb
    simp only [digitsVal, List.foldl]
    omega

theorem isDigit_ne (c d : Char) (h : isDigit c = true) (hd : isDigit d = false) : c ≠ d := by
  intro hcd
  subst hcd
  rw [h] at hd
  exact Bool.noConfusion hd

/-- On a numeral of one or two digits `Atoi` returns its value. -/
theorem Atoi_digits12 (ds : List Char) (h : isDigits12 ds = true) :
    Atoi ds = .ok (digitsVal ds : Int) := by
  rcases isDigits12_cases ds h with ⟨a, rfl, ha⟩ | ⟨a, b, rfl, ha, hb⟩
  · have h1 : a ≠ '+' := isDigit_ne a '+' ha (by decide)
    have h2 : a ≠ '-' := isDigit_ne a '-' ha (by decide)
    have ha2 := (isDigit_iff a).mp ha
    have e1 : ¬ (18446744073709551615 < a.toNat - 48) := by omega
    have e2 : ¬ (9223372036854775808 ≤ a.toNat - 48) := by omega
    simp [Atoi, parseUintLoop, digitsVal, ha, h1, h2, e1, e2]
  · have h1 : a ≠ '+' := isDigit_ne a '+' ha (by decide)
    have h2 : a ≠ '-' := isDigit_ne a '-' ha (by decide)
    have ha2 := (isDigit_iff a).mp ha
    have hb2 := (isDigit_iff b).mp hb
    have e1 : ¬ (18446744073709551615 < a.toNat - 48) := by omega
    have e2 : ¬ (1844674407370955162 ≤ a.toNat - 48) := by omega
    have e3 : ¬ (18446744073709551615 < (a.toNat - 48) * 10 + (b.toNat - 48)) := by omega
    have e4 : ¬ (9223372036854775808 ≤ (a.toNat - 48) * 10 + (b.toNat - 48)) := by omega
    simp [Atoi, parseUintLoop, digitsVal, ha, hb, h1, h2, e1, e2, e3, e4]

theorem le_foldl_digits (ds : List Char) (n : Nat) :
    n ≤ ds.foldl (fun n c => n * 10 + (c.toNat - 48)) n := by
  induction ds generalizing n with
  | nil => exact le_refl n
  | cons c cs ih =>
    rw [List.foldl_cons]
    exact le_trans (by omega) (ih _)

theorem parseUintLoop_digits (ds : List Char) (n : Nat) (hd : ds.all isDigit = true)
    (hb : ds.foldl (fun n c => n * 10 + (c.toNat - 48)) n < 2 ^ 64) :
    parseUintLoop ds n = .ok (ds.foldl (fun n c => n * 10 + (c.toNat - 48)) n) := by
  induction ds generalizing n with
  | nil => rfl
  | cons c cs ih =>
    rw [List.all_cons, Bool.and_eq_true] at hd
    rw [List.foldl_cons] at hb ⊢
    have h1 := le_foldl_digits cs (n * 10 + (c.toNat - 48))
    have e1 : ¬ (n ≥ (2 ^ 64 - 1) / 10 + 1) := by omega
    have e2 : ¬ (n * 10 + (c.toNat - 48) > 2 ^ 64 - 1) := by omega
    unfold parseUintLoop
    simp only [hd.1, Bool.not_true, Bool.false_eq_true, ↓reduceIte, e1, e2]
    exact ih _ hd.2 hb

/-- On a signed decimal numeral whose value fits 64 bits `Atoi` returns that value. -/
theorem Atoi_signed (sign ds : List Char) (v : Int)
    (hsign : sign = [] ∨ sign = ['+'] ∨ sign = ['-'])
    (hne : ds ≠ []) (hds : ds.all isDigit = true)
    (hv : v = if sign = ['-'] then -(digitsVal ds : Int) else (digitsVal ds : Int))
    (hmin : -2 ^ 63 ≤ v) (hmax : v ≤ 2 ^ 63 - 1) :
    Atoi (sign ++ ds) = .ok v := by
  have hloop : parseUintLoop ds 0 = .ok (digitsVal ds) := by
    apply parseUintLoop_digits ds 0 hds
    show digitsVal ds < 2 ^ 64
    split_ifs at hv <;> omega
  rcases hsign with rfl | rfl | rfl
  · obtain ⟨c, cs, rfl⟩ := List.exists_cons_of_ne_nil hne
    have hc : isDigit c = true := by
      rw [List.all_cons, Bool.and_eq_true] at hds
      exact hds.1
    have h1 : c ≠ '+' := isDigit_ne c '+' hc (by decide)
    have h2 : c ≠ '-' := isDigit_ne c '-' hc (by decide)
    simp only [List.nil_append, List.nil_eq, reduceCtorEq, ↓reduceIte] at hv ⊢
    have e : ¬ (digitsVal (c :: cs) ≥ 2 ^ 63) := by omega
    simp [Atoi, h1, h2, hloop, hv]
    omega
  · simp only [List.cons.injEq, Char.reduceEq, and_true, ↓reduceIte] at hv
    have e : ¬ (digitsVal ds ≥ 2 ^ 63) := by omega
    simp [Atoi, hne, hloop, hv]
    omega
  · simp only [↓reduceIte] at hv
    have e : ¬ (digitsVal ds > 2 ^ 63) := by omega
    simp [Atoi, hne, hloop, hv]
    omega
theorem rangeRe_some (s a b : List Char) (h : rangeRe s = some (a, b)) :
    isDigits12 a = true ∧ isDigits12 b = true ∧ s = a ++ '-' :: b := by
  unfold rangeRe at h
  split at h
  · rename_i a' b' hsp
    split at h
    · rename_i hc
      simp only [Option.some.injEq, Prod.mk.injEq] at h
      obtain ⟨rfl, rfl⟩ := h
      simp only [Bool.and_eq_true] at hc
      refine ⟨hc.1, hc.2, ?_⟩
      rw [List.span_eq_take_drop] at hsp
      simp only [Prod.mk.injEq] at hsp
      rw [← hsp.1, ← hsp.2]
      exact (List.takeWhile_append_dropWhile _ s).symm
    · exact Option.noConfusion h
  · exact Option.noConfusion h

theorem rangeRe_of_digits (a b : List Char) (ha : isDigits12 a = true)
    (hb : isDigits12 b = true) : rangeRe (a ++ '-' :: b) = some (a, b) := by
  have hsp : (a ++ '-' :: b).span (fun c => c != '-') = (a, '-' :: b) := by
    rcases isDigits12_cases a ha with ⟨x, rfl, hx⟩ | ⟨x, y, rfl, hx, hy⟩
    · have h1 : (x != '-') = true := by
        simpa using isDigit_ne x '-' hx (by decide)
      simp [List.span, List.span.loop, h1]
    · have h1 : (x != '-') = true := by
        simpa using isDigit_ne x '-' hx (by decide)
      have h2 : (y != '-') = true := by
        simpa using isDigit_ne y '-' hy (by decide)
      simp [List.span, List.span.loop, h1, h2]
  unfold rangeRe
  rw [hsp]
  simp [ha, hb]

theorem wildcardRe_some (s g : List Char) (h : wildcardRe s = some g) :
    (g = [] ∧ s = ['*']) ∨
      (∃ ds, isDigits12 ds = true ∧ g = '/' :: ds ∧ s = '*' :: '/' :: ds) := by
  unfold wildcardRe at h
  split at h
  · left
    simp only [Option.some.injEq] at h
    exact ⟨h.symm, rfl⟩
  · rename_i ds
    split at h
    · rename_i hc
      right
      simp only [Option.some.injEq] at h
      exact ⟨ds, hc, h.symm, rfl⟩
    · exact Option.noConfusion h
  · exact Option.noConfusion h

theorem wildcardRe_step (ds : List Char) (h : isDigits12 ds = true) :
    wildcardRe ('*' :: '/' :: ds) = some ('/' :: ds) := by
  simp [wildcardRe, h]

theorem rangeRe_star (t : List Char) : rangeRe ('*' :: t) = none := by
  cases hr : rangeRe ('*' :: t) with
  | none => rfl
  | some p =>
    obtain ⟨a, b⟩ := p
    obtain ⟨ha, _, hs⟩ := rangeRe_some _ a b hr
    rcases isDigits12_cases a ha with ⟨x, rfl, hx⟩ | ⟨x, y, rfl, hx, _⟩
    · simp only [List.singleton_append, List.cons.injEq] at hs
      exact absurd hs.1.symm (isDigit_ne x '*' hx (by decide))
    · simp only [List.cons_append, List.cons.injEq] at hs
      exact absurd hs.1.symm (isDigit_ne x '*' hx (by decide))

theorem Split_of_not_mem (s : List Char) (sep : Char) (h : sep ∉ s) : Split s sep = [s] := by
  induction s with
  | nil => rfl
  | cons c cs ih =>
    have hc : c ≠ sep := fun e => h (e ▸ List.mem_cons_self _ _)
    have hcs : sep ∉ cs := fun e => h (List.mem_cons_of_mem _ e)
    simp [Split, hc, ih hcs]

theorem comma_not_mem_digits (ds : List Char) (h : isDigits12 ds = true) : ',' ∉ ds := by
  intro hm
  unfold isDigits12 at h
  simp only [Bool.and_eq_true, List.all_eq_true] at h
  have := h.2 ',' hm
  exact absurd this (by decide)

/-- A signed decimal numeral holds no comma and has neither the range shape
nor the wildcard shape. -/
theorem signed_numeral_shape (sign ds : List Char)
    (hsign : sign = [] ∨ sign = ['+'] ∨ sign = ['-'])
    (hne : ds ≠ []) (hds : ds.all isDigit = true) :
    ',' ∉ sign ++ ds ∧ rangeRe (sign ++ ds) = none ∧ wildcardRe (sign ++ ds) = none := by
  have hall : ∀ c ∈ ds, isDigit c = true := List.all_eq_true.mp hds
  obtain ⟨c, cs, rfl⟩ := List.exists_cons_of_ne_nil hne
  have hc : isDigit c = true := hall c (List.mem_cons_self _ _)
  have hhead : ∃ x t, sign ++ c :: cs = x :: t ∧ x ≠ '*' ∧ (isDigit x = true → sign = []) := by
    rcases hsign with rfl | rfl | rfl
    · exact ⟨c, cs, rfl, isDigit_ne c '*' hc (by decide), fun _ => rfl⟩
    · exact ⟨'+', c :: cs, rfl, by decide, fun h => absurd h (by decide)⟩
    · exact ⟨'-', c :: cs, rfl, by decide, fun h => absurd h (by decide)⟩
  obtain ⟨x, t, hxt, hx1, hx2⟩ := hhead
  refine ⟨?_, ?_, ?_⟩
  · intro hm
    rcases List.mem_append.mp hm with hm | hm
    · rcases hsign with rfl | rfl | rfl
      · simp at hm
      · exact absurd (List.mem_singleton.mp hm) (by decide)
      · exact absurd (List.mem_singleton.mp hm) (by decide)
    · exact absurd (hall ',' hm) (by decide)
  · cases hr : rangeRe (sign ++ c :: cs) with
    | none => rfl
    | some p =>
      obtain ⟨a, b⟩ := p
      obtain ⟨ha, _, hs⟩ := rangeRe_some _ a b hr
      have hxa : ∃ u, a = x :: u ∧ isDigit x = true := by
        rcases isDigits12_cases a ha with ⟨y, rfl, hy⟩ | ⟨y, z, rfl, hy, _⟩
        · rw [hxt] at hs
          simp only [List.singleton_append, List.cons.injEq] at hs
          exact ⟨[], by rw [hs.1], hs.1 ▸ hy⟩
        · rw [hxt] at hs
          simp only [List.cons_append, List.cons.injEq] at hs
          exact ⟨[z], by rw [hs.1], hs.1 ▸ hy⟩
      obtain ⟨u, _, hxd⟩ := hxa
      have hnil := hx2 hxd
      subst hnil
      have hmem : '-' ∈ c :: cs := by
        rw [List.nil_append] at hs
        rw [hs]
        exact List.mem_append_right _ (List.mem_cons_self _ _)
      exact absurd (hall '-' hmem) (by decide)
  · cases hw : wildcardRe (sign ++ c :: cs) with
    | none => rfl
    | some g =>
      rcases wildcardRe_some _ g hw with ⟨_, hs⟩ | ⟨_, _, _, hs⟩
      · rw [hxt] at hs
        simp only [List.cons.injEq] at hs
        exact absurd hs.1 hx1
      · rw [hxt] at hs
        simp only [List.cons.injEq] at hs
        exact absurd hs.1 hx1

/-! ## `getValidRange` -/

theorem getValidRange_ok (fieldType : CronField) (lo hi : Int)
    (h : getValidRange fieldType = .ok (lo, hi)) :
    (fieldType = MinutesField ∧ lo = 0 ∧ hi = 59) ∨
    (fieldType = HoursField ∧ lo = 0 ∧ hi = 23) ∨
    (fieldType = MonthDaysField ∧ lo = 1 ∧ hi = 31) ∨
    (fieldType = MonthsField ∧ lo = 1 ∧ hi = 12) ∨
    (fieldType = WeekDaysField ∧ lo = 0 ∧ hi = 7) := by
  unfold getValidRange at h
  split_ifs at h with h0 h1 h2 h3 h4 <;>
    simp only [Except.ok.injEq, Prod.mk.injEq] at h <;>
    obtain ⟨rfl, rfl⟩ := h <;> simp [*]

/-! ## One sub-token -/

theorem expandInterval_range (validRange : Int × Int) (m : IntSet) (g1 g2 : List Char)
    (h1 : isDigits12 g1 = true) (h2 : isDigits12 g2 = true) :
    expandInterval validRange m (g1 ++ '-' :: g2) =
      if (digitsVal g2 : Int) < digitsVal g1 then
        .error (.returned (.rangeOrder (digitsVal g1) (digitsVal g2)))
      else if (digitsVal g1 : Int) < validRange.1 then
        .error (.returned (.rangeStart (digitsVal g1) validRange.1))
      else if (digitsVal g2 : Int) > validRange.2 then
        .error (.returned (.rangeEnd (digitsVal g2) validRange.2))
      else .ok ((loopRange (digitsVal g1) (digitsVal g2)).foldl setKey m) := by
  unfold expandInterval
  rw [rangeRe_of_digits g1 g2 h1 h2]
  simp only [Atoi_digits12 g1 h1, Atoi_digits12 g2 h2]

theorem expandInterval_star (validRange : Int × Int) (m : IntSet) :
    expandInterval validRange m ['*'] =
      .ok ((loopRange validRange.1 validRange.2).foldl setKey m) := by
  unfold expandInterval
  rw [rangeRe_star]
  simp [wildcardRe]

theorem expandInterval_step (validRange : Int × Int) (m : IntSet) (ds : List Char)
    (h : isDigits12 ds = true) :
    expandInterval validRange m ('*' :: '/' :: ds) =
      if (digitsVal ds : Int) > validRange.2 then
        .error (.returned (.frequency (digitsVal ds) validRange.2))
      else if (digitsVal ds : Int) = 0 then .error .panicDivideByZero
      else
        .ok ((loopRange validRange.1 (Int.tdiv validRange.2 (digitsVal ds))).foldl
          (fun m i => setKey m (i * (digitsVal ds : Int) + validRange.1))
          (setKey m validRange.1)) := by
  unfold expandInterval
  rw [rangeRe_star, wildcardRe_step ds h]
  simp only [List.length_cons, gt_iff_lt, Nat.zero_lt_succ, ↓reduceIte, List.drop_succ_cons,
    List.drop_zero, Atoi_digits12 ds h]

theorem expandInterval_number (validRange : Int × Int) (m : IntSet) (tok : List Char)
    (h1 : rangeRe tok = none) (h2 : wildcardRe tok = none) :
    expandInterval validRange m tok =
      match Atoi tok with
      | .error e => .error (.returned e)
      | .ok number =>
        if number < validRange.1 then .error (.returned (.valueMin number validRange.1))
        else if number > validRange.2 then .error (.returned (.valueMax number validRange.2))
        else .ok (setKey m number) := by
  unfold expandInterval
  rw [h1, h2]

/-- The four ways in which a sub-token adds values to the working set. -/
theorem expandInterval_ok (validRange : Int × Int) (m m' : IntSet) (tok : List Char)
    (h : expandInterval validRange m tok = .ok m') :
    (∃ a b : Int, validRange.1 ≤ a ∧ b ≤ validRange.2 ∧
        m' = (loopRange a b).foldl setKey m) ∨
    (∃ f : Int, 0 < f ∧ f ≤ validRange.2 ∧
        m' = (loopRange validRange.1 (Int.tdiv validRange.2 f)).foldl
          (fun m i => setKey m (i * f + validRange.1)) (setKey m validRange.1)) ∨
    (∃ v : Int, validRange.1 ≤ v ∧ v ≤ validRange.2 ∧ m' = setKey m v) := by
  cases hr : rangeRe tok with
  | some p =>
    obtain ⟨g1, g2⟩ := p
    obtain ⟨h1, h2, rfl⟩ := rangeRe_some tok g1 g2 hr
    rw [expandInterval_range validRange m g1 g2 h1 h2] at h
    split_ifs at h with c1 c2 c3
    left
    simp only [Except.ok.injEq] at h
    exact ⟨digitsVal g1, digitsVal g2, by omega, by omega, h.symm⟩
  | none =>
    cases hw : wildcardRe tok with
    | some g =>
      rcases wildcardRe_some tok g hw with ⟨_, rfl⟩ | ⟨ds, hds, _, rfl⟩
      · rw [expandInterval_star] at h
        left
        simp only [Except.ok.injEq] at h
        exact ⟨validRange.1, validRange.2, le_refl _, le_refl _, h.symm⟩
      · rw [expandInterval_step validRange m ds hds] at h
        split_ifs at h with c1 c2
        right; left
        simp only [Except.ok.injEq] at h
        exact ⟨digitsVal ds, by omega, by omega, h.symm⟩
    | none =>
      rw [expandInterval_number validRange m tok hr hw] at h
      split at h
      · exact Except.noConfusion h
      · rename_i number _
        split_ifs at h with c1 c2
        right; right
        simp only [Except.ok.injEq] at h
        exact ⟨number, by omega, by omega, h.symm⟩

theorem nodup_expandInterval (validRange : Int × Int) (m m' : IntSet) (tok : List Char)
    (h : expandInterval validRange m tok = .ok m') (hm : m.Nodup) : m'.Nodup := by
  rcases expandInterval_ok validRange m m' tok h with
    ⟨a, b, _, _, rfl⟩ | ⟨f, _, _, rfl⟩ | ⟨v, _, _, rfl⟩
  · exact nodup_foldl_setKey id _ m hm
  · exact nodup_foldl_setKey (fun i => i * f + validRange.1) _ _ (nodup_setKey m _ hm)
  · exact nodup_setKey m v hm

/-- Every value a sub-token adds lies between `lo` and `hi + lo`. -/
theorem bounds_expandInterval (lo hi : Int) (hlo : 0 ≤ lo) (hhi : 0 ≤ hi) (m m' : IntSet)
    (tok : List Char) (h : expandInterval (lo, hi) m tok = .ok m')
    (hm : ∀ v ∈ m, lo ≤ v ∧ v ≤ hi + lo) : ∀ v ∈ m', lo ≤ v ∧ v ≤ hi + lo := by
  intro v hv
  rcases expandInterval_ok (lo, hi) m m' tok h with
    ⟨a, b, ha, hb, rfl⟩ | ⟨f, hf, hfh, rfl⟩ | ⟨w, hw1, hw2, rfl⟩
  · rcases (mem_foldl_setKey id _ m v).mp hv with hv | ⟨i, hmem, hvi⟩
    · exact hm v hv
    · have := (mem_loopRange a b i).mp hmem
      have h1 : lo ≤ a := ha
      have h2 : b ≤ hi := hb
      simp only [id] at hvi
      omega
  · rcases (mem_foldl_setKey (fun i => i * f + lo) _ _ v).mp hv with hv | ⟨i, hmem, rfl⟩
    · rcases (mem_setKey m lo v).mp hv with hv | rfl
      · exact hm v hv
      · omega
    · have hi2 := (mem_loopRange _ _ i).mp hmem
      rw [Int.tdiv_eq_ediv hhi (le_of_lt hf)] at hi2
      have h1 : i * f ≤ hi := (Int.le_ediv_iff_mul_le hf).mp hi2.2
      have h2 : 0 ≤ i * f := Int.mul_nonneg (le_trans hlo hi2.1) (le_of_lt hf)
      constructor
      · show lo ≤ i * f + lo
        omega
      · show i * f + lo ≤ hi + lo
        omega
  · rcases (mem_setKey m w v).mp hv with hv | rfl
    · exact hm v hv
    · have h1 : lo ≤ v := hw1
      have h2 : v ≤ hi := hw2
      omega

/-! ## The loop over the sub-tokens and the whole function -/

theorem nodup_expandIntervals (validRange : Int × Int) (toks : List (List Char))
    (m m' : IntSet) (h : expandIntervals validRange toks m = .ok m') (hm : m.Nodup) :
    m'.Nodup := by
  induction toks generalizing m with
  | nil =>
    simp only [expandIntervals, Except.ok.injEq] at h
    exact h ▸ hm
  | cons tok toks ih =>
    simp only [expandIntervals] at h
    split at h
    · exact Except.noConfusion h
    · rename_i m1 h1
      exact ih m1 h (nodup_expandInterval validRange m m1 tok h1 hm)

theorem bounds_expandIntervals (lo hi : Int) (hlo : 0 ≤ lo) (hhi : 0 ≤ hi)
    (toks : List (List Char)) (m m' : IntSet)
    (h : expandIntervals (lo, hi) toks m = .ok m')
    (hm : ∀ v ∈ m, lo ≤ v ∧ v ≤ hi + lo) : ∀ v ∈ m', lo ≤ v ∧ v ≤ hi + lo := by
  induction toks generalizing m with
  | nil =>
    simp only [expandIntervals, Except.ok.injEq] at h
    exact h ▸ hm
  | cons tok toks ih =>
    simp only [expandIntervals] at h
    split at h
    · exact Except.noConfusion h
    · rename_i m1 h1
      exact ih m1 h (bounds_expandInterval lo hi hlo hhi m m1 tok h1 hm)

theorem expandIntervals_singleton (validRange : Int × Int) (tok : List Char) (m : IntSet) :
    expandIntervals validRange [tok] m = expandInterval validRange m tok := by
  simp only [expandIntervals]
  split <;> simp [*]

theorem parseTimeField_eq (input : List Char) (fieldType : CronField) (lo hi : Int)
    (hr : getValidRange fieldType = .ok (lo, hi)) :
    parseTimeField input fieldType =
      match expandIntervals (lo, hi) (Split input ',') [] with
      | .error e => .error e
      | .ok m => .ok (foldSunday fieldType (sortInts m)) := by
  unfold parseTimeField
  simp only [hr]

theorem parseTimeField_ok (input : List Char) (fieldType : CronField) (r : List Int)
    (h : parseTimeField input fieldType = .ok r) :
    ∃ lo hi m, getValidRange fieldType = .ok (lo, hi) ∧
      expandIntervals (lo, hi) (Split input ',') [] = .ok m ∧
      r = foldSunday fieldType (sortInts m) := by
  cases hr : getValidRange fieldType with
  | error e =>
    unfold parseTimeField at h
    simp only [hr] at h
    exact Except.noConfusion h
  | ok vr =>
    obtain ⟨lo, hi⟩ := vr
    rw [parseTimeField_eq input fieldType lo hi hr] at h
    split at h
    · exact Except.noConfusion h
    · rename_i m hm
      simp only [Except.ok.injEq] at h
      exact ⟨lo, hi, m, rfl, hm, h.symm⟩

theorem validRange_nonneg (fieldType : CronField) (lo hi : Int)
    (hr : getValidRange fieldType = .ok (lo, hi)) : (lo = 0 ∨ lo = 1) ∧ 0 ≤ hi := by
  rcases getValidRange_ok fieldType lo hi hr with
    ⟨_, rfl, rfl⟩ | ⟨_, rfl, rfl⟩ | ⟨_, rfl, rfl⟩ | ⟨_, rfl, rfl⟩ | ⟨_, rfl, rfl⟩ <;> simp

theorem weekDays_range (lo hi : Int) (hr : getValidRange WeekDaysField = .ok (lo, hi)) :
    lo = 0 ∧ hi = 7 := by
  have h : getValidRange WeekDaysField = .ok (0, 7) := by decide
  rw [h] at hr
  simp only [Except.ok.injEq, Prod.mk.injEq] at hr
  exact ⟨hr.1.symm, hr.2.symm⟩

/-- The result of a successful call: the working set in strictly ascending
order, without 0 when the field is the week-days field and 7 is present. -/
theorem parseTimeField_spec (input : List Char) (fieldType : CronField) (lo hi : Int)
    (m : IntSet) (hr : getValidRange fieldType = .ok (lo, hi))
    (hm : expandIntervals (lo, hi) (Split input ',') [] = .ok m) :
    parseTimeField input fieldType = .ok (foldSunday fieldType (sortInts m)) ∧
      (foldSunday fieldType (sortInts m)).Sorted (fun x y => x < y) ∧
      ∀ v, v ∈ foldSunday fieldType (sortInts m) ↔
        v ∈ m ∧ ¬ (fieldType = WeekDaysField ∧ v = 0 ∧ 7 ∈ m) := by
  have hnd : m.Nodup := nodup_expandIntervals (lo, hi) _ [] m hm List.nodup_nil
  have hs := sorted_sortInts m hnd
  refine ⟨?_, sorted_foldSunday fieldType _ hs, ?_⟩
  · rw [parseTimeField_eq input fieldType lo hi hr, hm]
  · intro v
    rw [mem_foldSunday fieldType (sortInts m) hs ?_ v, mem_sortInts, mem_sortInts]
    intro hft w hw
    subst hft
    obtain ⟨rfl, rfl⟩ := weekDays_range lo hi hr
    have := bounds_expandIntervals 0 7 (le_refl _) (by decide) _ [] m hm (by simp) w
      ((mem_sortInts m w).mp hw)
    omega

/-! ## The claims -/

/-- C1 (the code departs from it): the values of a field are claimed to lie
in the domain `[lo, hi]` of its kind; for the day of the month `getValidRange`
gives `[1, 31]`, yet the stepped wildcard `*/1` expands to 1, 2, ..., 32, so
the result holds a value outside the domain. -/
theorem monthDays_every_day_reaches_32 :
    parseTimeField "*/1".toList MonthDaysField =
        .ok [1, 2, 3, 4, 5, 6, 7, 8, 9, 10, 11, 12, 13, 14, 15, 16, 17, 18, 19, 20, 21, 22,
          23, 24, 25, 26, 27, 28, 29, 30, 31, 32] ∧
      ∃ lo hi r, getValidRange MonthDaysField = .ok (lo, hi) ∧
        parseTimeField "*/1".toList MonthDaysField = .ok r ∧
        ∃ v ∈ r, ¬ (lo ≤ v ∧ v ≤ hi) := by
  refine ⟨by decide, 1, 31, [1, 2, 3, 4, 5, 6, 7, 8, 9, 10, 11, 12, 13, 14, 15, 16, 17, 18,
    19, 20, 21, 22, 23, 24, 25, 26, 27, 28, 29, 30, 31, 32], by decide, by decide, 32,
    by decide, by decide⟩

/-- C2: whenever `parseTimeField` succeeds, each element of the sequence it
returns is strictly less than the next one, and no value is repeated. -/
theorem parseTimeField_strictly_ascending (input : List Char) (fieldType : CronField)
    (r : List Int) (h : parseTimeField input fieldType = .ok r) :
    List.Chain' (fun x y => x < y) r ∧ r.Nodup := by
  obtain ⟨lo, hi, m, hr, hm, rfl⟩ := parseTimeField_ok input fieldType r h
  have hs := (parseTimeField_spec input fieldType lo hi m hr hm).2.1
  exact ⟨List.Pairwise.chain' hs, hs.nodup⟩

theorem parseTimeField_strictly_ascending_witness :
    List.Chain' (fun x y : Int => x < y) [1, 4, 10] ∧ ([1, 4, 10] : List Int).Nodup :=
  parseTimeField_strictly_ascending "4,4,1,10".toList MinutesField [1, 4, 10] (by decide)

/-- C3: a successful result for the week-days field never holds both 0 and 7;
and when the working set `m` built from the sub-tokens holds both 0 and 7, the
result is `m` in ascending order with 0 removed, and 7 is kept. -/
theorem weekDays_sunday_folded (input : List Char) (r : List Int) (m : IntSet)
    (h : parseTimeField input WeekDaysField = .ok r) :
    ¬ (0 ∈ r ∧ 7 ∈ r) ∧
      (expandIntervals (0, 7) (Split input ',') [] = .ok m → 0 ∈ m → 7 ∈ m →
        r = (sortInts m).filter (fun v => decide (v ≠ 0)) ∧ 7 ∈ r) := by
  obtain ⟨lo, hi, m0, hr, hm0, rfl⟩ := parseTimeField_ok input WeekDaysField r h
  obtain ⟨_, hs, hmem⟩ := parseTimeField_spec input WeekDaysField lo hi m0 hr hm0
  obtain ⟨rfl, rfl⟩ := weekDays_range lo hi hr
  constructor
  · rintro ⟨h0, h7⟩
    have a0 := (hmem 0).mp h0
    have a7 := (hmem 7).mp h7
    exact a0.2 ⟨rfl, rfl, a7.1⟩
  · intro hm m0' m7'
    rw [hm0] at hm
    simp only [Except.ok.injEq] at hm
    subst hm
    constructor
    · apply eq_of_sorted_of_mem_iff _ _ hs
      · exact List.Pairwise.filter _ (sorted_sortInts m0
          (nodup_expandIntervals (0, 7) _ [] m0 hm0 List.nodup_nil))
      · intro v
        rw [hmem v, List.mem_filter, mem_sortInts]
        simp only [true_and, not_and, decide_eq_true_eq]
        constructor
        · rintro ⟨hv, hn⟩
          exact ⟨hv, fun hv0 => hn hv0 m7'⟩
        · rintro ⟨hv, hn⟩
          exact ⟨hv, fun hv0 => absurd hv0 hn⟩
    · exact (hmem 7).mpr ⟨m7', by rintro ⟨_, h70, _⟩; exact absurd h70 (by decide)⟩

theorem weekDays_sunday_folded_witness :
    ¬ ((0 : Int) ∈ [3, 7] ∧ (7 : Int) ∈ [3, 7]) ∧
      ([3, 7] = (sortInts [0, 3, 7]).filter (fun v => decide (v ≠ 0)) ∧ (7 : Int) ∈ [3, 7]) :=
  have h := weekDays_sunday_folded "0,3,7".toList [3, 7] [0, 3, 7] (by decide)
  ⟨h.1, h.2 (by decide) (by decide) (by decide)⟩

/-- C4 (the code departs from it): `*/n` is claimed to give exactly the values
`lo, lo + n, ...` that do not exceed `hi`; for the day of the month (domain
1..31) `*/31` gives 1 and 32, and for the month (domain 1..12) `*/12` gives 1
and 13. -/
theorem step_equal_to_upper_bound_overshoots :
    getValidRange MonthDaysField = .ok (1, 31) ∧
      parseTimeField "*/31".toList MonthDaysField = .ok [1, 32] ∧
      getValidRange MonthsField = .ok (1, 12) ∧
      parseTimeField "*/12".toList MonthsField = .ok [1, 13] := by
  refine ⟨by decide, by decide, by decide, by decide⟩

/-- C5: for a kind with domain `[lo, hi]` and a step `n` written with one or
two digits, `1 ≤ n ≤ hi`, `parseTimeField` succeeds on `*/n` and returns, in
strictly ascending order, the members of `{lo} ∪ {lo + m*n : 1 ≤ m ≤ hi / n}`;
for the week-days field 0 is left out when 7 is in that set. -/
theorem stepped_wildcard_expansion (fieldType : CronField) (lo hi : Int) (ds : List Char)
    (hr : getValidRange fieldType = .ok (lo, hi)) (hd : isDigits12 ds = true)
    (h1 : 1 ≤ digitsVal ds) (h2 : (digitsVal ds : Int) ≤ hi) :
    ∃ r, parseTimeField ('*' :: '/' :: ds) fieldType = .ok r ∧
      r.Sorted (fun x y => x < y) ∧
      ∀ v, v ∈ r ↔ (SteppedSet lo hi (digitsVal ds) v ∧
        ¬ (fieldType = WeekDaysField ∧ v = 0 ∧ SteppedSet lo hi (digitsVal ds) 7)) := by
  obtain ⟨hlo, hhi⟩ := validRange_nonneg fieldType lo hi hr
  have hn : (0 : Int) < digitsVal ds := by omega
  have hsplit : Split ('*' :: '/' :: ds) ',' = ['*' :: '/' :: ds] := by
    apply Split_of_not_mem
    intro hm
    rcases List.mem_cons.mp hm with e | hm
    · exact absurd e (by decide)
    · rcases List.mem_cons.mp hm with e | hm
      · exact absurd e (by decide)
      · exact comma_not_mem_digits ds hd hm
  have hm : expandIntervals (lo, hi) (Split ('*' :: '/' :: ds) ',') [] =
      .ok ((loopRange lo (Int.tdiv hi (digitsVal ds))).foldl
        (fun m i => setKey m (i * (digitsVal ds : Int) + lo)) (setKey [] lo)) := by
    rw [hsplit, expandIntervals_singleton, expandInterval_step (lo, hi) [] ds hd]
    simp only
    rw [if_neg (by omega), if_neg (by omega)]
  obtain ⟨he, hs, hmem⟩ := parseTimeField_spec _ fieldType lo hi _ hr hm
  have key : ∀ v, v ∈ (loopRange lo (Int.tdiv hi (digitsVal ds))).foldl
      (fun m i => setKey m (i * (digitsVal ds : Int) + lo)) (setKey [] lo) ↔
      SteppedSet lo hi (digitsVal ds) v := by
    intro v
    rw [mem_foldl_setKey (fun i => i * (digitsVal ds : Int) + lo), mem_setKey,
      Int.tdiv_eq_ediv hhi (le_of_lt hn)]
    unfold SteppedSet
    constructor
    · rintro ((hv | hv) | ⟨i, hi1, hv⟩)
      · simp at hv
      · exact Or.inl hv
      · have hb := (mem_loopRange _ _ i).mp hi1
        rcases hlo with rfl | rfl
        · by_cases hi0 : i = 0
          · subst hi0
            left
            simpa using hv
          · right
            exact ⟨i, by omega, hb.2, by rw [hv]; ring⟩
        · right
          exact ⟨i, hb.1, hb.2, by rw [hv]; ring⟩
    · rintro (hv | ⟨k, hk1, hk2, hv⟩)
      · exact Or.inl (Or.inr hv)
      · right
        refine ⟨k, (mem_loopRange _ _ k).mpr ⟨?_, hk2⟩, by rw [hv]; ring⟩
        rcases hlo with rfl | rfl <;> omega
  refine ⟨_, he, hs, ?_⟩
  intro v
  rw [hmem v, key v, key 7]

theorem stepped_wildcard_expansion_witness :
    ∃ r, parseTimeField ('*' :: '/' :: "4".toList) MonthDaysField = .ok r ∧
      r.Sorted (fun x y => x < y) ∧
      ∀ v, v ∈ r ↔ (SteppedSet 1 31 (digitsVal "4".toList) v ∧
        ¬ (MonthDaysField = WeekDaysField ∧ v = 0 ∧
          SteppedSet 1 31 (digitsVal "4".toList) 7)) :=
  stepped_wildcard_expansion MonthDaysField 1 31 "4".toList (by decide) (by decide)
    (by decide) (by decide)

/-- C6 (the code departs from it): a call is claimed to end with a sequence or
with an error value on every input; on `*/0` and on `*/00` the step passes the
check `frequency > validRange[1]` and the division `validRange[1] / frequency`
divides by zero, which in Go is a run-time panic. -/
theorem zero_step_divides_by_zero :
    parseTimeField "*/0".toList MinutesField = .error .panicDivideByZero ∧
      parseTimeField "*/00".toList MinutesField = .error .panicDivideByZero ∧
      parseTimeField "1,*/0".toList WeekDaysField = .error .panicDivideByZero := by
  refine ⟨by decide, by decide, by decide⟩

set_option maxRecDepth 100000 in
/-- C7: on the bare wildcard `*` each kind gives its whole domain in ascending
order: 0..59, 0..23, 1..31, 1..12, and 1..7 for the week days. -/
theorem bare_wildcard_full_domain :
    parseTimeField "*".toList MinutesField =
        .ok [0, 1, 2, 3, 4, 5, 6, 7, 8, 9, 10, 11, 12, 13, 14, 15, 16, 17, 18, 19, 20, 21,
          22, 23, 24, 25, 26, 27, 28, 29, 30, 31, 32, 33, 34, 35, 36, 37, 38, 39, 40, 41, 42,
          43, 44, 45, 46, 47, 48, 49, 50, 51, 52, 53, 54, 55, 56, 57, 58, 59] ∧
      parseTimeField "*".toList HoursField =
        .ok [0, 1, 2, 3, 4, 5, 6, 7, 8, 9, 10, 11, 12, 13, 14, 15, 16, 17, 18, 19, 20, 21,
          22, 23] ∧
      parseTimeField "*".toList MonthDaysField =
        .ok [1, 2, 3, 4, 5, 6, 7, 8, 9, 10, 11, 12, 13, 14, 15, 16, 17, 18, 19, 20, 21, 22,
          23, 24, 25, 26, 27, 28, 29, 30, 31] ∧
      parseTimeField "*".toList MonthsField = .ok [1, 2, 3, 4, 5, 6, 7, 8, 9, 10, 11, 12] ∧
      parseTimeField "*".toList WeekDaysField = .ok [1, 2, 3, 4, 5, 6, 7] := by
  refine ⟨by decide, by decide, by decide, by decide, by decide⟩

/-! ## Single tokens: ranges, bare integers, steps above the domain -/

theorem Split_range_token (A B : List Char) (hA : isDigits12 A = true)
    (hB : isDigits12 B = true) : Split (A ++ '-' :: B) ',' = [A ++ '-' :: B] := by
  apply Split_of_not_mem
  intro hm
  rcases List.mem_append.mp hm with hm | hm
  · exact comma_not_mem_digits A hA hm
  · rcases List.mem_cons.mp hm with e | hm
    · exact absurd e (by decide)
    · exact comma_not_mem_digits B hB hm

theorem sortInts_loopRange (a b : Int) :
    sortInts ((loopRange a b).foldl setKey []) = loopRange a b := by
  apply eq_of_sorted_of_mem_iff
  · exact sorted_sortInts _ (nodup_foldl_setKey id _ [] List.nodup_nil)
  · exact sorted_loopRange a b
  · intro v
    rw [mem_sortInts]
    have h := mem_foldl_setKey id (loopRange a b) [] v
    simp only [id] at h
    rw [h]
    simp

theorem foldSunday_loopRange (fieldType : CronField) (lo hi a b : Int)
    (hr : getValidRange fieldType = .ok (lo, hi)) (ha : lo ≤ a) (hb : b ≤ hi) :
    foldSunday fieldType (loopRange a b) =
      if fieldType = WeekDaysField ∧ a = 0 ∧ b = 7 then loopRange 1 7 else loopRange a b := by
  split
  · rename_i hc
    obtain ⟨rfl, rfl, rfl⟩ := hc
    decide
  · rename_i hc
    unfold foldSunday
    rw [if_neg]
    rintro ⟨hft, _, h0, h7⟩
    subst hft
    obtain ⟨rfl, rfl⟩ := weekDays_range lo hi hr
    have m0 := (mem_loopRange a b 0).mp (List.mem_of_mem_head? h0)
    have m7 := (mem_loopRange a b 7).mp (List.mem_of_getLast?_eq_some h7)
    exact hc ⟨rfl, by omega, by omega⟩

/-- The outcome of `parseTimeField` on a range token, from the values of its
two numerals. -/
theorem parseTimeField_range (fieldType : CronField) (lo hi : Int) (A B : List Char)
    (hr : getValidRange fieldType = .ok (lo, hi))
    (hA : isDigits12 A = true) (hB : isDigits12 B = true) :
    parseTimeField (A ++ '-' :: B) fieldType =
      if (digitsVal B : Int) < digitsVal A then
        .error (.returned (.rangeOrder (digitsVal A) (digitsVal B)))
      else if (digitsVal A : Int) < lo then
        .error (.returned (.rangeStart (digitsVal A) lo))
      else if (digitsVal B : Int) > hi then
        .error (.returned (.rangeEnd (digitsVal B) hi))
      else
        .ok (if fieldType = WeekDaysField ∧ (digitsVal A : Int) = 0 ∧ (digitsVal B : Int) = 7
          then loopRange 1 7 else loopRange (digitsVal A) (digitsVal B)) := by
  rw [parseTimeField_eq _ fieldType lo hi hr, Split_range_token A B hA hB,
    expandIntervals_singleton, expandInterval_range (lo, hi) [] A B hA hB]
  simp only
  split_ifs with c1 c2 c3 c4 <;> simp only [sortInts_loopRange]
  · rw [foldSunday_loopRange fieldType lo hi _ _ hr (by omega) (by omega), if_pos c4]
  · rw [foldSunday_loopRange fieldType lo hi _ _ hr (by omega) (by omega), if_neg c4]

/-- C8: on a range token `A-B` of two numerals of one or two digits with
values `a` and `b`, `parseTimeField` fails with the range-order error when
`a > b`, otherwise with a range-bounds error when `a < lo` or `b > hi`, and
otherwise returns `a, a+1, ..., b` (`1, ..., 7` for the week days when `a = 0`
and `b = 7`); two tokens whose numerals have the same values, such as a
zero-padded one, have the same outcome. -/
theorem range_token_outcome (fieldType : CronField) (lo hi : Int) (A B : List Char)
    (hr : getValidRange fieldType = .ok (lo, hi))
    (hA : isDigits12 A = true) (hB : isDigits12 B = true) :
    parseTimeField (A ++ '-' :: B) fieldType =
      (if (digitsVal B : Int) < digitsVal A then
        .error (.returned (.rangeOrder (digitsVal A) (digitsVal B)))
      else if (digitsVal A : Int) < lo then
        .error (.returned (.rangeStart (digitsVal A) lo))
      else if (digitsVal B : Int) > hi then
        .error (.returned (.rangeEnd (digitsVal B) hi))
      else
        .ok (if fieldType = WeekDaysField ∧ (digitsVal A : Int) = 0 ∧ (digitsVal B : Int) = 7
          then loopRange 1 7 else loopRange (digitsVal A) (digitsVal B))) ∧
    ∀ A2 B2 : List Char, isDigits12 A2 = true → isDigits12 B2 = true →
      digitsVal A2 = digitsVal A → digitsVal B2 = digitsVal B →
      parseTimeField (A2 ++ '-' :: B2) fieldType = parseTimeField (A ++ '-' :: B) fieldType := by
  refine ⟨parseTimeField_range fieldType lo hi A B hr hA hB, ?_⟩
  intro A2 B2 hA2 hB2 eA eB
  rw [parseTimeField_range fieldType lo hi A B hr hA hB,
    parseTimeField_range fieldType lo hi A2 B2 hr hA2 hB2, eA, eB]

theorem range_token_outcome_witness :
    parseTimeField ("0".toList ++ '-' :: "5".toList) HoursField = .ok [0, 1, 2, 3, 4, 5] ∧
      parseTimeField ("00".toList ++ '-' :: "05".toList) HoursField =
        parseTimeField ("0".toList ++ '-' :: "5".toList) HoursField :=
  have h := range_token_outcome HoursField 0 23 "0".toList "5".toList (by decide) (by decide)
    (by decide)
  ⟨h.1.trans (by decide), h.2 "00".toList "05".toList (by decide) (by decide) (by decide)
    (by decide)⟩

/-- C9: on a signed decimal numeral (an optional `+` or `-`, then one or
more digits) whose value `v` fits the 64-bit `int` -- a token without a
comma that has neither the range shape nor the wildcard shape and that
`Atoi` reads as `v` -- `parseTimeField` succeeds exactly when `lo ≤ v ≤ hi`,
and then returns `[v]`; otherwise it fails with the value-bounds error
(below `lo`, or above `hi`). -/
theorem bare_integer_outcome (fieldType : CronField) (lo hi : Int) (sign ds : List Char)
    (v : Int) (hr : getValidRange fieldType = .ok (lo, hi))
    (hsign : sign = [] ∨ sign = ['+'] ∨ sign = ['-'])
    (hne : ds ≠ []) (hds : ds.all isDigit = true)
    (hv : v = if sign = ['-'] then -(digitsVal ds : Int) else (digitsVal ds : Int))
    (hmin : -2 ^ 63 ≤ v) (hmax : v ≤ 2 ^ 63 - 1) :
    (',' ∉ sign ++ ds ∧ rangeRe (sign ++ ds) = none ∧ wildcardRe (sign ++ ds) = none ∧
      Atoi (sign ++ ds) = .ok v) ∧
    parseTimeField (sign ++ ds) fieldType =
      (if v < lo then .error (.returned (.valueMin v lo))
      else if v > hi then .error (.returned (.valueMax v hi))
      else .ok [v]) ∧
    ((∃ r, parseTimeField (sign ++ ds) fieldType = .ok r) ↔ lo ≤ v ∧ v ≤ hi) := by
  obtain ⟨hc, h1, h2⟩ := signed_numeral_shape sign ds hsign hne hds
  have ha := Atoi_signed sign ds v hsign hne hds hv hmin hmax
  have he : parseTimeField (sign ++ ds) fieldType =
      (if v < lo then .error (.returned (.valueMin v lo))
      else if v > hi then .error (.returned (.valueMax v hi))
      else .ok [v]) := by
    rw [parseTimeField_eq _ fieldType lo hi hr, Split_of_not_mem _ ',' hc,
      expandIntervals_singleton, expandInterval_number (lo, hi) [] _ h1 h2, ha]
    simp only
    split_ifs with c1 c2
    · rfl
    · rfl
    · have hs : sortInts (setKey [] v) = [v] := by simp [setKey, sortInts]
      have hf : foldSunday fieldType [v] = [v] := by simp [foldSunday]
      simp only [hs, hf]
  refine ⟨⟨hc, h1, h2, ha⟩, he, ?_⟩
  rw [he]
  split_ifs with c1 c2
  · simp; omega
  · simp; omega
  · simp; omega

theorem bare_integer_outcome_witness :
    parseTimeField "+9".toList MinutesField = .ok [9] ∧
      parseTimeField "-0".toList WeekDaysField = .ok [0] ∧
      parseTimeField "-3".toList HoursField = .error (.returned (.valueMin (-3) 0)) :=
  ⟨(bare_integer_outcome MinutesField 0 59 ['+'] "9".toList 9 (by decide) (by decide)
      (by decide) (by decide) (by decide) (by decide) (by decide)).2.1.trans (by decide),
    (bare_integer_outcome WeekDaysField 0 7 ['-'] "0".toList 0 (by decide) (by decide)
      (by decide) (by decide) (by decide) (by decide) (by decide)).2.1.trans (by decide),
    (bare_integer_outcome HoursField 0 23 ['-'] "3".toList (-3) (by decide) (by decide)
      (by decide) (by decide) (by decide) (by decide) (by decide)).2.1.trans (by decide)⟩

/-- C10: on a stepped wildcard `*/n` whose step, a numeral of one or two
digits, is greater than the upper bound `hi` of the kind, `parseTimeField`
fails with the frequency error and returns no sequence. -/
theorem step_above_upper_bound_fails (fieldType : CronField) (lo hi : Int) (ds : List Char)
    (hr : getValidRange fieldType = .ok (lo, hi)) (hd : isDigits12 ds = true)
    (hn : (digitsVal ds : Int) > hi) :
    parseTimeField ('*' :: '/' :: ds) fieldType =
      .error (.returned (.frequency (digitsVal ds) hi)) := by
  have hsplit : Split ('*' :: '/' :: ds) ',' = ['*' :: '/' :: ds] := by
    apply Split_of_not_mem
    intro hm
    rcases List.mem_cons.mp hm with e | hm
    · exact absurd e (by decide)
    · rcases List.mem_cons.mp hm with e | hm
      · exact absurd e (by decide)
      · exact comma_not_mem_digits ds hd hm
  rw [parseTimeField_eq _ fieldType lo hi hr, hsplit, expandIntervals_singleton,
    expandInterval_step (lo, hi) [] ds hd]
  simp only
  rw [if_pos hn]

theorem step_above_upper_bound_fails_witness :
    parseTimeField ('*' :: '/' :: "65".toList) MinutesField =
      .error (.returned (.frequency (digitsVal "65".toList) 59)) :=
  step_above_upper_bound_fails MinutesField 0 59 "65".toList (by decide) (by decide)
    (by decide)

/-! ## Bounds, non-emptiness and the folding step -/

theorem foldSunday_subset (fieldType : CronField) (r : List Int) (v : Int)
    (h : v ∈ foldSunday fieldType r) : v ∈ r := by
  unfold foldSunday at h
  split at h
  · exact List.mem_of_mem_drop h
  · exact h

/-- C19: with `[lo, hi]` the domain of the kind, every value `v` of a
successful result satisfies `lo ≤ v ≤ hi + lo`: nothing above `hi` for the
kinds that start at 0, nothing above `hi + 1` for the kinds that start at 1. -/
theorem parseTimeField_values_within_hi_plus_lo (input : List Char) (fieldType : CronField)
    (lo hi : Int) (r : List Int) (hr : getValidRange fieldType = .ok (lo, hi))
    (h : parseTimeField input fieldType = .ok r) :
    (∀ v ∈ r, lo ≤ v ∧ v ≤ hi + lo) ∧
      (lo = 0 → ∀ v ∈ r, v ≤ hi) ∧ (lo = 1 → ∀ v ∈ r, v ≤ hi + 1) := by
  have hb : ∀ v ∈ r, lo ≤ v ∧ v ≤ hi + lo := by
    obtain ⟨lo2, hi2, m, hr2, hm, rfl⟩ := parseTimeField_ok input fieldType r h
    rw [hr] at hr2
    simp only [Except.ok.injEq, Prod.mk.injEq] at hr2
    obtain ⟨rfl, rfl⟩ := hr2
    obtain ⟨hlo, hhi⟩ := validRange_nonneg fieldType lo hi hr
    intro v hv
    have hvm : v ∈ m := (mem_sortInts m v).mp (foldSunday_subset fieldType _ v hv)
    exact bounds_expandIntervals lo hi (by omega) hhi _ [] m hm (by simp) v hvm
  refine ⟨hb, ?_, ?_⟩
  · intro h0 v hv
    have := hb v hv
    omega
  · intro h1 v hv
    have := hb v hv
    omega

theorem parseTimeField_values_within_hi_plus_lo_witness :
    (∀ v ∈ ([1, 16, 31] : List Int), (1 : Int) ≤ v ∧ v ≤ 31 + 1) ∧
      ((1 : Int) = 0 → ∀ v ∈ ([1, 16, 31] : List Int), v ≤ 31) ∧
      ((1 : Int) = 1 → ∀ v ∈ ([1, 16, 31] : List Int), v ≤ 31 + 1) :=
  parseTimeField_values_within_hi_plus_lo "*/15".toList MonthDaysField 1 31 [1, 16, 31]
    (by decide) (by decide)

/-- The folding step changes nothing on a strictly ascending list that does
not start with 0. -/
theorem foldSunday_idem_aux (fieldType : CronField) (r : List Int)
    (h : r.Sorted (fun x y => x < y)) :
    foldSunday fieldType (foldSunday fieldType r) = foldSunday fieldType r := by
  by_cases hc : fieldType = WeekDaysField ∧ r.length ≥ 2 ∧ r.head? = some 0 ∧
      r.getLast? = some 7
  · have e1 : foldSunday fieldType r = r.drop 1 := by
      unfold foldSunday
      rw [if_pos hc]
    rw [e1]
    obtain ⟨t, rfl⟩ := List.head?_eq_some_iff.mp hc.2.2.1
    have hat : ∀ y ∈ t, (0 : Int) < y := (List.pairwise_cons.mp h).1
    simp only [List.drop_one, List.tail_cons]
    unfold foldSunday
    rw [if_neg]
    rintro ⟨_, _, h0, _⟩
    have := hat 0 (List.mem_of_mem_head? h0)
    omega
  · have e1 : foldSunday fieldType r = r := by
      unfold foldSunday
      rw [if_neg hc]
    rw [e1, e1]

/-- C18: on a strictly ascending sequence `r` the week-days folding is
idempotent, `fold (fold r) = fold r`; and when `r` is a result of
`parseTimeField` for the week days, folding it once more leaves it unchanged. -/
theorem foldSunday_idempotent (fieldType : CronField) (r : List Int)
    (h : r.Sorted (fun x y => x < y)) :
    foldSunday fieldType (foldSunday fieldType r) = foldSunday fieldType r ∧
      ∀ input, parseTimeField input WeekDaysField = .ok r → foldSunday WeekDaysField r = r := by
  refine ⟨foldSunday_idem_aux fieldType r h, ?_⟩
  intro input hp
  obtain ⟨lo, hi, m, hr, hm, rfl⟩ := parseTimeField_ok input WeekDaysField r hp
  exact foldSunday_idem_aux WeekDaysField _
    (sorted_sortInts m (nodup_expandIntervals (lo, hi) _ [] m hm List.nodup_nil))

theorem foldSunday_idempotent_witness :
    (foldSunday WeekDaysField (foldSunday WeekDaysField [0, 3, 7]) =
        foldSunday WeekDaysField [0, 3, 7] ∧
      foldSunday WeekDaysField [0, 3, 7] = [3, 7]) ∧
    (parseTimeField "0,3,7".toList WeekDaysField = .ok [3, 7] ∧
      foldSunday WeekDaysField [3, 7] = [3, 7]) :=
  ⟨⟨(foldSunday_idempotent WeekDaysField [0, 3, 7] (by decide)).1, by decide⟩,
    ⟨by decide,
      (foldSunday_idempotent WeekDaysField [3, 7] (by decide)).2 "0,3,7".toList (by decide)⟩⟩

/-! ## A sub-token adds a fixed list of values, whatever the working set -/

theorem mem_foldl_setKey_vals (vals : List Int) (m : IntSet) (v : Int) :
    v ∈ vals.foldl setKey m ↔ v ∈ m ∨ v ∈ vals := by
  have h := mem_foldl_setKey id vals m v
  simp only [id] at h
  rw [h]
  simp

theorem foldl_setKey_ne_nil (vals : List Int) (m : IntSet) (h : vals ≠ []) :
    vals.foldl setKey m ≠ [] := by
  obtain ⟨v, t, rfl⟩ := List.exists_cons_of_ne_nil h
  intro he
  have hv : v ∈ (v :: t).foldl setKey m :=
    (mem_foldl_setKey_vals (v :: t) m v).mpr (Or.inr (List.mem_cons_self _ _))
  rw [he] at hv
  simp at hv

theorem loopRange_ne_nil (a b : Int) (h : a ≤ b) : loopRange a b ≠ [] := by
  intro he
  have ha : a ∈ loopRange a b := (mem_loopRange a b a).mpr ⟨le_refl a, h⟩
  rw [he] at ha
  simp at ha

theorem Atoi_error (s : List Char) (e : CronError) (h : Atoi s = .error e) :
    ∃ k, e = .atoi s k := by
  unfold Atoi at h
  simp only at h
  repeat' (split at h)
  all_goals first
    | exact ⟨_, (Except.error.inj h).symm⟩
    | exact Except.noConfusion h

/-- Whether a sub-token fails, and with what, does not depend on the working
set; when it succeeds it adds a non-empty list of values that does not
depend on the working set either. -/
theorem expandInterval_acc (lo hi : Int) (hle : lo ≤ hi) (tok : List Char) :
    (∃ e, isFieldFailure e = true ∧
        ∀ m, expandInterval (lo, hi) m tok = .error e) ∨
      (∃ vals : List Int, vals ≠ [] ∧
        ∀ m, expandInterval (lo, hi) m tok = .ok (vals.foldl setKey m)) := by
  cases hr : rangeRe tok with
  | some p =>
    obtain ⟨g1, g2⟩ := p
    obtain ⟨h1, h2, rfl⟩ := rangeRe_some tok g1 g2 hr
    by_cases c1 : (digitsVal g2 : Int) < digitsVal g1
    · left
      refine ⟨.returned (.rangeOrder (digitsVal g1) (digitsVal g2)), rfl,
        fun m => ?_⟩
      rw [expandInterval_range (lo, hi) m g1 g2 h1 h2, if_pos c1]
    · by_cases c2 : (digitsVal g1 : Int) < lo
      · left
        refine ⟨.returned (.rangeStart (digitsVal g1) lo), rfl, fun m => ?_⟩
        rw [expandInterval_range (lo, hi) m g1 g2 h1 h2, if_neg c1, if_pos c2]
      · by_cases c3 : (digitsVal g2 : Int) > hi
        · left
          refine ⟨.returned (.rangeEnd (digitsVal g2) hi), rfl, fun m => ?_⟩
          rw [expandInterval_range (lo, hi) m g1 g2 h1 h2, if_neg c1, if_neg c2, if_pos c3]
        · right
          refine ⟨loopRange (digitsVal g1) (digitsVal g2),
            loopRange_ne_nil _ _ (by omega), fun m => ?_⟩
          rw [expandInterval_range (lo, hi) m g1 g2 h1 h2, if_neg c1, if_neg c2, if_neg c3]
  | none =>
    cases hw : wildcardRe tok with
    | some g =>
      rcases wildcardRe_some tok g hw with ⟨_, rfl⟩ | ⟨ds, hds, _, rfl⟩
      · right
        exact ⟨loopRange lo hi, loopRange_ne_nil _ _ hle,
          fun m => expandInterval_star (lo, hi) m⟩
      · by_cases c1 : (digitsVal ds : Int) > hi
        · left
          refine ⟨.returned (.frequency (digitsVal ds) hi), rfl, fun m => ?_⟩
          rw [expandInterval_step (lo, hi) m ds hds, if_pos c1]
        · by_cases c2 : (digitsVal ds : Int) = 0
          · left
            refine ⟨.panicDivideByZero, rfl, fun m => ?_⟩
            rw [expandInterval_step (lo, hi) m ds hds, if_neg c1, if_pos c2]
          · right
            refine ⟨lo :: (loopRange lo (Int.tdiv hi (digitsVal ds))).map
              (fun i => i * (digitsVal ds : Int) + lo), by simp, fun m => ?_⟩
            rw [expandInterval_step (lo, hi) m ds hds, if_neg c1, if_neg c2,
              List.foldl_cons, List.foldl_map]
    | none =>
      cases ha : Atoi tok with
      | error e =>
        left
        obtain ⟨k, rfl⟩ := Atoi_error tok e ha
        refine ⟨.returned (.atoi tok k), rfl, fun m => ?_⟩
        rw [expandInterval_number (lo, hi) m tok hr hw, ha]
      | ok number =>
        by_cases c1 : number < lo
        · left
          refine ⟨.returned (.valueMin number lo), rfl, fun m => ?_⟩
          rw [expandInterval_number (lo, hi) m tok hr hw, ha]
          simp only
          rw [if_pos c1]
        · by_cases c2 : number > hi
          · left
            refine ⟨.returned (.valueMax number hi), rfl, fun m => ?_⟩
            rw [expandInterval_number (lo, hi) m tok hr hw, ha]
            simp only
            rw [if_neg c1, if_pos c2]
          · right
            refine ⟨[number], by simp, fun m => ?_⟩
            rw [expandInterval_number (lo, hi) m tok hr hw, ha]
            simp only
            rw [if_neg c1, if_neg c2]
            rfl

theorem expandIntervals_append (validRange : Int × Int) (pre post : List (List Char))
    (m : IntSet) :
    expandIntervals validRange (pre ++ post) m =
      match expandIntervals validRange pre m with
      | .error e => .error e
      | .ok m1 => expandIntervals validRange post m1 := by
  induction pre generalizing m with
  | nil => rfl
  | cons tok pre ih =>
    simp only [List.cons_append, expandIntervals]
    cases expandInterval validRange m tok with
    | error e => rfl
    | ok m1 => exact ih m1

/-- The loop over the sub-tokens fails or succeeds independently of the
working set it starts from, and on success adds a fixed list of values. -/
theorem expandIntervals_acc (lo hi : Int) (hle : lo ≤ hi) (toks : List (List Char)) :
    (∃ e, isFieldFailure e = true ∧
        ∀ m, expandIntervals (lo, hi) toks m = .error e) ∨
      (∃ vals : List Int, (toks ≠ [] → vals ≠ []) ∧
        ∀ m, expandIntervals (lo, hi) toks m = .ok (vals.foldl setKey m)) := by
  induction toks with
  | nil => exact Or.inr ⟨[], fun h => absurd rfl h, fun m => rfl⟩
  | cons tok toks ih =>
    rcases expandInterval_acc lo hi hle tok with ⟨e, he, h1⟩ | ⟨vals1, hne, h1⟩
    · left
      refine ⟨e, he, fun m => ?_⟩
      simp only [expandIntervals, h1 m]
    · rcases ih with ⟨e, he, h2⟩ | ⟨vals2, _, h2⟩
      · left
        refine ⟨e, he, fun m => ?_⟩
        simp only [expandIntervals, h1 m, h2]
      · right
        refine ⟨vals1 ++ vals2, fun _ => by simp [hne], fun m => ?_⟩
        simp only [expandIntervals, h1 m, h2, List.foldl_append]

theorem Split_ne_nil (s : List Char) (sep : Char) : Split s sep ≠ [] := by
  cases s with
  | nil => simp [Split]
  | cons c cs =>
    unfold Split
    split_ifs
    · simp
    · split <;> simp

theorem validRange_le (fieldType : CronField) (lo hi : Int)
    (hr : getValidRange fieldType = .ok (lo, hi)) : lo ≤ hi := by
  rcases getValidRange_ok fieldType lo hi hr with
    ⟨_, rfl, rfl⟩ | ⟨_, rfl, rfl⟩ | ⟨_, rfl, rfl⟩ | ⟨_, rfl, rfl⟩ | ⟨_, rfl, rfl⟩ <;> decide

theorem foldSunday_ne_nil (fieldType : CronField) (r : List Int) (h : r ≠ []) :
    foldSunday fieldType r ≠ [] := by
  unfold foldSunday
  split
  · rename_i hc
    intro he
    have hl : (r.drop 1).length = 0 := by rw [he]; rfl
    rw [List.length_drop] at hl
    omega
  · exact h

/-- A successful result of `parseTimeField` is not empty. -/
theorem parseTimeField_ne_nil (input : List Char) (fieldType : CronField) (r : List Int)
    (h : parseTimeField input fieldType = .ok r) : r ≠ [] := by
  obtain ⟨lo, hi, m, hr, hm, rfl⟩ := parseTimeField_ok input fieldType r h
  apply foldSunday_ne_nil
  have hmne : m ≠ [] := by
    rcases expandIntervals_acc lo hi (validRange_le fieldType lo hi hr) (Split input ',') with
      ⟨e, _, h1⟩ | ⟨vals, hne, h1⟩
    · rw [h1] at hm
      exact Except.noConfusion hm
    · rw [h1] at hm
      simp only [Except.ok.injEq] at hm
      rw [← hm]
      exact foldl_setKey_ne_nil vals [] (hne (Split_ne_nil input ','))
  intro he
  have hl : (sortInts m).length = m.length := (List.perm_insertionSort _ m).length_eq
  rw [he] at hl
  exact hmne (List.length_eq_zero.mp hl.symm)

/-! ## Malformed sub-tokens -/

theorem parseUintLoop_ok_digits (ds : List Char) (n un : Nat)
    (h : parseUintLoop ds n = .ok un) : ds.all isDigit = true := by
  induction ds generalizing n with
  | nil => rfl
  | cons c cs ih =>
    unfold parseUintLoop at h
    simp only at h
    split_ifs at h with h1 h2 h3
    rw [List.all_cons, Bool.and_eq_true]
    exact ⟨by simpa using h1, ih _ h⟩

/-- What `Atoi` accepts has the shape of a signed decimal integer. -/
theorem Atoi_ok_shape (s : List Char) (v : Int) (h : Atoi s = .ok v) :
    isSignedDecimal s = true := by
  by_cases h1 : s = []
  · rw [Atoi, if_pos h1] at h
    exact Except.noConfusion h
  unfold Atoi at h
  rw [if_neg h1] at h
  simp only at h
  generalize hbody :
    (if s.head? = some '+' ∨ s.head? = some '-' then List.drop 1 s else s) = body at h
  by_cases h3 : body = []
  · rw [if_pos h3] at h
    exact Except.noConfusion h
  rw [if_neg h3] at h
  cases hun : parseUintLoop body 0 with
  | error e =>
    rw [hun] at h
    exact Except.noConfusion h
  | ok un =>
    have hd := parseUintLoop_ok_digits body 0 un hun
    obtain ⟨c, cs, rfl⟩ := List.exists_cons_of_ne_nil h1
    simp only [List.head?_cons, Option.some.injEq, List.drop_succ_cons, List.drop_zero]
      at hbody
    by_cases hp : c = '+'
    · subst hp
      rw [if_pos (Or.inl rfl)] at hbody
      subst hbody
      simp [isSignedDecimal, hd, h3]
    · by_cases hm : c = '-'
      · subst hm
        rw [if_pos (Or.inr rfl)] at hbody
        subst hbody
        simp [isSignedDecimal, hd, h3]
      · rw [if_neg (by simp [hp, hm])] at hbody
        subst hbody
        unfold isSignedDecimal
        split
        · rename_i heq
          simp only [List.cons.injEq] at heq
          exact absurd heq.1 hp
        · rename_i heq
          simp only [List.cons.injEq] at heq
          exact absurd heq.1 hm
        · simp [hd]

/-- The characters of a sub-token of one of the three shapes. -/
theorem shape_chars (tok : List Char)
    (h : rangeRe tok ≠ none ∨ wildcardRe tok ≠ none ∨ isSignedDecimal tok = true) :
    tok ≠ [] ∧ ∀ c ∈ tok, isDigit c = true ∨ c = '-' ∨ c = '+' ∨ c = '*' ∨ c = '/' := by
  have hdig : ∀ ds : List Char, isDigits12 ds = true → ∀ c ∈ ds, isDigit c = true := by
    intro ds hds c hc
    unfold isDigits12 at hds
    simp only [Bool.and_eq_true, List.all_eq_true] at hds
    exact hds.2 c hc
  rcases h with h | h | h
  · cases hr : rangeRe tok with
    | none => exact absurd hr h
    | some p =>
      obtain ⟨a, b⟩ := p
      obtain ⟨ha, hb, rfl⟩ := rangeRe_some tok a b hr
      refine ⟨by simp, fun c hc => ?_⟩
      rcases List.mem_append.mp hc with hc | hc
      · exact Or.inl (hdig a ha c hc)
      · rcases List.mem_cons.mp hc with rfl | hc
        · exact Or.inr (Or.inl rfl)
        · exact Or.inl (hdig b hb c hc)
  · cases hw : wildcardRe tok with
    | none => exact absurd hw h
    | some g =>
      rcases wildcardRe_some tok g hw with ⟨_, rfl⟩ | ⟨ds, hds, _, rfl⟩
      · refine ⟨by simp, fun c hc => ?_⟩
        simp only [List.mem_singleton] at hc
        exact Or.inr (Or.inr (Or.inr (Or.inl hc)))
      · refine ⟨by simp, fun c hc => ?_⟩
        rcases List.mem_cons.mp hc with rfl | hc
        · exact Or.inr (Or.inr (Or.inr (Or.inl rfl)))
        · rcases List.mem_cons.mp hc with rfl | hc
          · exact Or.inr (Or.inr (Or.inr (Or.inr rfl)))
          · exact Or.inl (hdig ds hds c hc)
  · unfold isSignedDecimal at h
    split at h
    · simp only [Bool.and_eq_true, List.all_eq_true] at h
      refine ⟨by simp, fun c hc => ?_⟩
      rcases List.mem_cons.mp hc with rfl | hc
      · exact Or.inr (Or.inr (Or.inl rfl))
      · exact Or.inl (h.2 c hc)
    · simp only [Bool.and_eq_true, List.all_eq_true] at h
      refine ⟨by simp, fun c hc => ?_⟩
      rcases List.mem_cons.mp hc with rfl | hc
      · exact Or.inr (Or.inl rfl)
      · exact Or.inl (h.2 c hc)
    · simp only [Bool.and_eq_true, List.all_eq_true] at h
      refine ⟨?_, fun c hc => Or.inl (h.2 c hc)⟩
      intro he
      subst he
      simp at h

theorem isSpace_not_shape_char (c : Char) (h : isSpace c = true) :
    ¬ (isDigit c = true ∨ c = '-' ∨ c = '+' ∨ c = '*' ∨ c = '/') := by
  rintro (hd | rfl | rfl | rfl | rfl)
  · rw [isDigit_iff] at hd
    unfold isSpace at h
    simp only [Bool.or_eq_true, Bool.and_eq_true, decide_eq_true_eq] at h
    omega
  all_goals exact absurd h (by decide)

/-- An empty sub-token, one with a whitespace character, and one of none of
the three shapes all reach `Atoi` and are refused by it. -/
theorem malformed_shape (tok : List Char)
    (hbad : tok = [] ∨ (∃ c ∈ tok, isSpace c = true) ∨
      (rangeRe tok = none ∧ wildcardRe tok = none ∧ isSignedDecimal tok = false)) :
    rangeRe tok = none ∧ wildcardRe tok = none ∧ ∃ k, Atoi tok = .error (.atoi tok k) := by
  have hno : ¬ (rangeRe tok ≠ none ∨ wildcardRe tok ≠ none ∨ isSignedDecimal tok = true) := by
    intro hs
    obtain ⟨hne, hch⟩ := shape_chars tok hs
    rcases hbad with rfl | ⟨c, hc, hsp⟩ | ⟨h1, h2, h3⟩
    · exact hne rfl
    · exact isSpace_not_shape_char c hsp (hch c hc)
    · rcases hs with hs | hs | hs
      · exact hs h1
      · exact hs h2
      · rw [h3] at hs
        exact Bool.noConfusion hs
  simp only [not_or, not_not] at hno
  refine ⟨hno.1, hno.2.1, ?_⟩
  cases ha : Atoi tok with
  | error e =>
    obtain ⟨k, rfl⟩ := Atoi_error tok e ha
    exact ⟨k, rfl⟩
  | ok v => exact absurd (Atoi_ok_shape tok v ha) hno.2.2

/-- C11: when one of the comma-separated sub-tokens is empty, holds a
whitespace character, or is none of a range, a wildcard and a signed decimal
integer, `parseTimeField` returns no sequence; and when the sub-tokens before
it all expand, the failure is the integer-parsing error of `Atoi` on that
sub-token. -/
theorem malformed_token_fails (input : List Char) (fieldType : CronField)
    (pre post : List (List Char)) (tok : List Char)
    (hs : Split input ',' = pre ++ tok :: post)
    (hbad : tok = [] ∨ (∃ c ∈ tok, isSpace c = true) ∨
      (rangeRe tok = none ∧ wildcardRe tok = none ∧ isSignedDecimal tok = false)) :
    (∀ r, parseTimeField input fieldType ≠ .ok r) ∧
      ∀ lo hi m, getValidRange fieldType = .ok (lo, hi) →
        expandIntervals (lo, hi) pre [] = .ok m →
        ∃ k, parseTimeField input fieldType = .error (.returned (.atoi tok k)) := by
  obtain ⟨h1, h2, k, hk⟩ := malformed_shape tok hbad
  have htok : ∀ vr m, expandIntervals vr (tok :: post) m = .error (.returned (.atoi tok k)) := by
    intro vr m
    simp only [expandIntervals, expandInterval_number vr m tok h1 h2, hk]
  constructor
  · intro r hp
    obtain ⟨lo, hi, m, _, hm, _⟩ := parseTimeField_ok input fieldType r hp
    rw [hs, expandIntervals_append] at hm
    cases hpre : expandIntervals (lo, hi) pre [] with
    | error e =>
      rw [hpre] at hm
      exact Except.noConfusion hm
    | ok m1 =>
      rw [hpre] at hm
      simp only [htok] at hm
      exact Except.noConfusion hm
  · intro lo hi m hr hpre
    refine ⟨k, ?_⟩
    rw [parseTimeField_eq input fieldType lo hi hr, hs, expandIntervals_append, hpre]
    simp only [htok]

theorem malformed_token_fails_witness :
    (∀ r, parseTimeField "*/".toList MinutesField ≠ .ok r) ∧
      (∀ r, parseTimeField "*/invalid".toList MinutesField ≠ .ok r) ∧
      (∀ r, parseTimeField "20 -30".toList MinutesField ≠ .ok r) ∧
      (∃ k, parseTimeField "4, 8".toList MinutesField =
        .error (.returned (.atoi " 8".toList k))) ∧
      (∀ r, parseTimeField "4,,8".toList MinutesField ≠ .ok r) :=
  ⟨(malformed_token_fails "*/".toList MinutesField [] [] "*/".toList (by decide)
      (Or.inr (Or.inr (by decide)))).1,
    (malformed_token_fails "*/invalid".toList MinutesField [] [] "*/invalid".toList
      (by decide) (Or.inr (Or.inr (by decide)))).1,
    (malformed_token_fails "20 -30".toList MinutesField [] [] "20 -30".toList (by decide)
      (Or.inr (Or.inl ⟨' ', by decide, by decide⟩))).1,
    (malformed_token_fails "4, 8".toList MinutesField ["4".toList] [] " 8".toList (by decide)
      (Or.inr (Or.inl ⟨' ', by decide, by decide⟩))).2 0 59 [4] (by decide) (by decide),
    (malformed_token_fails "4,,8".toList MinutesField ["4".toList] ["8".toList] [] (by decide)
      (Or.inl rfl)).1⟩

/-! ## Comma composition -/

theorem Split_append_sep (s t : List Char) (sep : Char) :
    Split (s ++ sep :: t) sep = Split s sep ++ Split t sep := by
  induction s with
  | nil => simp [Split]
  | cons c cs ih =>
    by_cases hc : c = sep
    · simp [Split, hc, ih]
    · cases hsp : Split cs sep with
      | nil => exact absurd hsp (Split_ne_nil cs sep)
      | cons piece pieces =>
        have e1 : Split (c :: cs) sep = (c :: piece) :: pieces := by
          simp only [Split, if_neg hc, hsp]
        have e2 : Split (c :: (cs ++ sep :: t)) sep = (c :: piece) :: (pieces ++ Split t sep) := by
          simp only [Split, if_neg hc, ih, hsp, List.cons_append]
        rw [List.cons_append, e1, e2, List.cons_append]

/-- The loop succeeds exactly when every sub-token expands on its own, and
then the working set holds the starting values and the values of the
sub-tokens. -/
theorem expandIntervals_tokens (lo hi : Int) (hle : lo ≤ hi) (toks : List (List Char))
    (m0 : IntSet) :
    ((∃ m, expandIntervals (lo, hi) toks m0 = .ok m) ↔
        ∀ tok ∈ toks, ∃ m1, expandInterval (lo, hi) [] tok = .ok m1) ∧
      ∀ m, expandIntervals (lo, hi) toks m0 = .ok m →
        ∀ v, v ∈ m ↔ v ∈ m0 ∨ tokenValues (lo, hi) toks v := by
  induction toks generalizing m0 with
  | nil =>
    refine ⟨⟨fun _ tok h => absurd h (List.not_mem_nil tok), fun _ => ⟨m0, rfl⟩⟩, ?_⟩
    intro m hm v
    simp only [expandIntervals, Except.ok.injEq] at hm
    subst hm
    simp [tokenValues]
  | cons tok toks ih =>
    rcases expandInterval_acc lo hi hle tok with ⟨e, _, h1⟩ | ⟨vals, _, h1⟩
    · refine ⟨⟨?_, ?_⟩, ?_⟩
      · rintro ⟨m, hm⟩
        simp only [expandIntervals, h1 m0] at hm
        exact Except.noConfusion hm
      · intro hall
        obtain ⟨m1, hm1⟩ := hall tok (List.mem_cons_self _ _)
        rw [h1] at hm1
        exact Except.noConfusion hm1
      · intro m hm
        simp only [expandIntervals, h1 m0] at hm
        exact Except.noConfusion hm
    · obtain ⟨ih1, ih2⟩ := ih (vals.foldl setKey m0)
      have hstep : expandIntervals (lo, hi) (tok :: toks) m0 =
          expandIntervals (lo, hi) toks (vals.foldl setKey m0) := by
        simp only [expandIntervals, h1 m0]
      have hval : ∀ v, v ∈ vals ↔ ∃ m, expandInterval (lo, hi) [] tok = .ok m ∧ v ∈ m := by
        intro v
        constructor
        · intro hv
          exact ⟨_, h1 [], (mem_foldl_setKey_vals vals [] v).mpr (Or.inr hv)⟩
        · rintro ⟨m, hm, hv⟩
          rw [h1] at hm
          simp only [Except.ok.injEq] at hm
          subst hm
          rcases (mem_foldl_setKey_vals vals [] v).mp hv with hv | hv
          · simp at hv
          · exact hv
      refine ⟨?_, ?_⟩
      · rw [hstep, ih1]
        constructor
        · intro hall t ht
          rcases List.mem_cons.mp ht with rfl | ht
          · exact ⟨_, h1 []⟩
          · exact hall t ht
        · intro hall t ht
          exact hall t (List.mem_cons_of_mem _ ht)
      · intro m hm v
        rw [hstep] at hm
        rw [ih2 m hm v, mem_foldl_setKey_vals, hval v]
        unfold tokenValues
        constructor
        · rintro ((h | ⟨m1, hm1, hv⟩) | ⟨t, ht, m1, hm1, hv⟩)
          · exact Or.inl h
          · exact Or.inr ⟨tok, List.mem_cons_self _ _, m1, hm1, hv⟩
          · exact Or.inr ⟨t, List.mem_cons_of_mem _ ht, m1, hm1, hv⟩
        · rintro (h | ⟨t, ht, m1, hm1, hv⟩)
          · exact Or.inl (Or.inl h)
          · rcases List.mem_cons.mp ht with rfl | ht
            · exact Or.inl (Or.inr ⟨m1, hm1, hv⟩)
            · exact Or.inr ⟨t, ht, m1, hm1, hv⟩

/-- Success of `parseTimeField`, sub-token by sub-token. -/
theorem parseTimeField_ok_iff (input : List Char) (fieldType : CronField) (lo hi : Int)
    (hr : getValidRange fieldType = .ok (lo, hi)) :
    (∃ r, parseTimeField input fieldType = .ok r) ↔
      ∀ tok ∈ Split input ',', ∃ m1, expandInterval (lo, hi) [] tok = .ok m1 := by
  rw [← (expandIntervals_tokens lo hi (validRange_le fieldType lo hi hr) _ []).1,
    parseTimeField_eq input fieldType lo hi hr]
  constructor
  · rintro ⟨r, h⟩
    split at h
    · exact Except.noConfusion h
    · rename_i m hm
      exact ⟨m, hm⟩
  · rintro ⟨m, hm⟩
    rw [hm]
    exact ⟨_, rfl⟩

/-- The result of `parseTimeField` from the values of the sub-tokens. -/
theorem parseTimeField_tokens (input : List Char) (fieldType : CronField) (lo hi : Int)
    (r : List Int) (hr : getValidRange fieldType = .ok (lo, hi))
    (h : parseTimeField input fieldType = .ok r) :
    r.Sorted (fun x y => x < y) ∧
      ∀ v, v ∈ r ↔ tokenValues (lo, hi) (Split input ',') v ∧
        ¬ (fieldType = WeekDaysField ∧ v = 0 ∧ tokenValues (lo, hi) (Split input ',') 7) := by
  obtain ⟨lo2, hi2, m, hr2, hm, rfl⟩ := parseTimeField_ok input fieldType r h
  rw [hr] at hr2
  simp only [Except.ok.injEq, Prod.mk.injEq] at hr2
  obtain ⟨rfl, rfl⟩ := hr2
  obtain ⟨_, hs, hmem⟩ := parseTimeField_spec input fieldType lo hi m hr hm
  have hv := (expandIntervals_tokens lo hi (validRange_le fieldType lo hi hr) _ []).2 m hm
  refine ⟨hs, fun v => ?_⟩
  rw [hmem v, hv v, hv 7]
  simp

theorem parseTimeField_bounds (input : List Char) (fieldType : CronField) (lo hi : Int)
    (r : List Int) (hr : getValidRange fieldType = .ok (lo, hi))
    (h : parseTimeField input fieldType = .ok r) : ∀ v ∈ r, lo ≤ v ∧ v ≤ hi + lo := by
  obtain ⟨lo2, hi2, m, hr2, hm, rfl⟩ := parseTimeField_ok input fieldType r h
  rw [hr] at hr2
  simp only [Except.ok.injEq, Prod.mk.injEq] at hr2
  obtain ⟨rfl, rfl⟩ := hr2
  obtain ⟨hlo, hhi⟩ := validRange_nonneg fieldType lo hi hr
  intro v hv
  have hvm : v ∈ m := (mem_sortInts m v).mp (foldSunday_subset fieldType _ v hv)
  exact bounds_expandIntervals lo hi (by omega) hhi _ [] m hm (by simp) v hvm

theorem tokenValues_append (validRange : Int × Int) (a b : List (List Char)) (v : Int) :
    tokenValues validRange (a ++ b) v ↔ tokenValues validRange a v ∨ tokenValues validRange b v := by
  unfold tokenValues
  constructor
  · rintro ⟨t, ht, rest⟩
    rcases List.mem_append.mp ht with ht | ht
    · exact Or.inl ⟨t, ht, rest⟩
    · exact Or.inr ⟨t, ht, rest⟩
  · rintro (⟨t, ht, rest⟩ | ⟨t, ht, rest⟩)
    · exact ⟨t, List.mem_append_left _ ht, rest⟩
    · exact ⟨t, List.mem_append_right _ ht, rest⟩

theorem sorted_ascendingMerge (a b : List Int) :
    (ascendingMerge a b).Sorted (fun x y => x < y) :=
  sorted_sortInts _ (List.nodup_dedup _)

theorem mem_ascendingMerge (a b : List Int) (v : Int) :
    v ∈ ascendingMerge a b ↔ v ∈ a ∨ v ∈ b := by
  unfold ascendingMerge
  rw [mem_sortInts, List.mem_dedup, List.mem_append]

theorem parseTimeField_invalid_kind (input : List Char) (fieldType : CronField)
    (e : CronError) (hr : getValidRange fieldType = .error e) (r : List Int) :
    parseTimeField input fieldType ≠ .ok r := by
  unfold parseTimeField
  simp only [hr]
  exact fun h => Except.noConfusion h

theorem tokenValues_congr (validRange : Int × Int) (a b : List (List Char))
    (h : ∀ tok, tok ∈ a ↔ tok ∈ b) (v : Int) :
    tokenValues validRange a v ↔ tokenValues validRange b v := by
  unfold tokenValues
  constructor
  · rintro ⟨t, ht, rest⟩
    exact ⟨t, (h t).mp ht, rest⟩
  · rintro ⟨t, ht, rest⟩
    exact ⟨t, (h t).mpr ht, rest⟩

/-- The result of a comma list of two texts is the folded merge of their
results. -/
theorem parseTimeField_comma (s t : List Char) (fieldType : CronField) (lo hi : Int)
    (rs rt r : List Int) (hr : getValidRange fieldType = .ok (lo, hi))
    (hs : parseTimeField s fieldType = .ok rs) (ht : parseTimeField t fieldType = .ok rt)
    (h : parseTimeField (s ++ ',' :: t) fieldType = .ok r) :
    r = foldSunday fieldType (ascendingMerge rs rt) := by
  obtain ⟨hsr, hmr⟩ := parseTimeField_tokens _ fieldType lo hi r hr h
  obtain ⟨_, hms⟩ := parseTimeField_tokens _ fieldType lo hi rs hr hs
  obtain ⟨_, hmt⟩ := parseTimeField_tokens _ fieldType lo hi rt hr ht
  have hbs := parseTimeField_bounds s fieldType lo hi rs hr hs
  have hbt := parseTimeField_bounds t fieldType lo hi rt hr ht
  have hsm := sorted_ascendingMerge rs rt
  apply eq_of_sorted_of_mem_iff _ _ hsr (sorted_foldSunday fieldType _ hsm)
  intro v
  have hbm : fieldType = WeekDaysField → ∀ w ∈ ascendingMerge rs rt, 0 ≤ w ∧ w ≤ 7 := by
    intro hft w hw
    subst hft
    obtain ⟨rfl, rfl⟩ := weekDays_range lo hi hr
    rcases (mem_ascendingMerge rs rt w).mp hw with hw | hw
    · have := hbs w hw
      omega
    · have := hbt w hw
      omega
  rw [mem_foldSunday fieldType _ hsm hbm v, mem_ascendingMerge, mem_ascendingMerge, hmr v,
    hms v, hmt v, hms 7, hmt 7, Split_append_sep, tokenValues_append, tokenValues_append]
  have h70 : ¬ ((7 : Int) = 0) := by decide
  simp only [h70, false_and, and_false, not_false_eq_true, and_true]
  tauto

/-- C12: a comma list `s,t` parses exactly when `s` and `t` both parse, and
then its result is the ascending duplicate-free merge of the two results,
folded once more for the week days; two texts with the same set of
sub-tokens, whatever their order and repetition, have the same result. -/
theorem comma_composition_is_union (s t : List Char) (fieldType : CronField) :
    ((∃ r, parseTimeField (s ++ ',' :: t) fieldType = .ok r) ↔
        (∃ rs, parseTimeField s fieldType = .ok rs) ∧
          (∃ rt, parseTimeField t fieldType = .ok rt)) ∧
      (∀ rs rt, parseTimeField s fieldType = .ok rs → parseTimeField t fieldType = .ok rt →
        parseTimeField (s ++ ',' :: t) fieldType =
          .ok (foldSunday fieldType (ascendingMerge rs rt))) ∧
      (∀ u w r, (∀ tok, tok ∈ Split u ',' ↔ tok ∈ Split w ',') →
        parseTimeField u fieldType = .ok r → parseTimeField w fieldType = .ok r) := by
  cases hr : getValidRange fieldType with
  | error e =>
    have hno := fun input r => parseTimeField_invalid_kind input fieldType e hr r
    refine ⟨⟨?_, ?_⟩, ?_, ?_⟩
    · rintro ⟨r, h⟩
      exact absurd h (hno _ r)
    · rintro ⟨⟨r, h⟩, _⟩
      exact absurd h (hno _ r)
    · intro rs rt h
      exact absurd h (hno _ rs)
    · intro u w r _ h
      exact absurd h (hno _ r)
  | ok vr =>
    obtain ⟨lo, hi⟩ := vr
    have hiff : (∃ r, parseTimeField (s ++ ',' :: t) fieldType = .ok r) ↔
        (∃ rs, parseTimeField s fieldType = .ok rs) ∧
          (∃ rt, parseTimeField t fieldType = .ok rt) := by
      rw [parseTimeField_ok_iff _ fieldType lo hi hr, parseTimeField_ok_iff _ fieldType lo hi hr,
        parseTimeField_ok_iff _ fieldType lo hi hr, Split_append_sep]
      constructor
      · intro hall
        exact ⟨fun tok h => hall tok (List.mem_append_left _ h),
          fun tok h => hall tok (List.mem_append_right _ h)⟩
      · rintro ⟨h1, h2⟩ tok h
        rcases List.mem_append.mp h with h | h
        · exact h1 tok h
        · exact h2 tok h
    refine ⟨hiff, ?_, ?_⟩
    · intro rs rt hs ht
      obtain ⟨r, h⟩ := hiff.mpr ⟨⟨rs, hs⟩, ⟨rt, ht⟩⟩
      rw [h, parseTimeField_comma s t fieldType lo hi rs rt r hr hs ht h]
    · intro u w r hsame hu
      have hw : ∃ r2, parseTimeField w fieldType = .ok r2 := by
        rw [parseTimeField_ok_iff _ fieldType lo hi hr]
        intro tok htok
        exact (parseTimeField_ok_iff _ fieldType lo hi hr).mp ⟨r, hu⟩ tok ((hsame tok).mpr htok)
      obtain ⟨r2, hw⟩ := hw
      obtain ⟨hs1, hm1⟩ := parseTimeField_tokens _ fieldType lo hi r hr hu
      obtain ⟨hs2, hm2⟩ := parseTimeField_tokens _ fieldType lo hi r2 hr hw
      rw [hw]
      congr 1
      apply eq_of_sorted_of_mem_iff _ _ hs2 hs1
      intro v
      rw [hm1 v, hm2 v, tokenValues_congr (lo, hi) _ _ hsame v,
        tokenValues_congr (lo, hi) _ _ hsame 7]

theorem comma_composition_is_union_witness :
    parseTimeField ("0,7".toList ++ ',' :: "0,3".toList) WeekDaysField =
        .ok (foldSunday WeekDaysField (ascendingMerge [7] [0, 3])) ∧
      foldSunday WeekDaysField (ascendingMerge [7] [0, 3]) = [3, 7] ∧
      parseTimeField "3,7,0,3".toList WeekDaysField = .ok [3, 7] :=
  have h := comma_composition_is_union "0,7".toList "0,3".toList WeekDaysField
  ⟨h.2.1 [7] [0, 3] (by decide) (by decide), by decide,
    h.2.2 "0,7,0,3".toList "3,7,0,3".toList [3, 7]
      (by
        intro tok
        have e1 : Split "0,7,0,3".toList ',' = [['0'], ['7'], ['0'], ['3']] := by decide
        have e2 : Split "3,7,0,3".toList ',' = [['3'], ['7'], ['0'], ['3']] := by decide
        rw [e1, e2]
        simp only [List.mem_cons, List.mem_singleton, List.not_mem_nil, or_false]
        tauto)
      (by decide)⟩

/-! ## `sanitizeInput` -/

theorem replaceTabs_no_tab (inRun : Bool) (s : List Char) : '\t' ∉ replaceTabs inRun s := by
  induction s generalizing inRun with
  | nil => simp [replaceTabs]
  | cons c cs ih =>
    unfold replaceTabs
    split_ifs with h1 h2
    · exact ih true
    · intro hm
      rcases List.mem_cons.mp hm with e | hm
      · exact absurd e (by decide)
      · exact ih true hm
    · intro hm
      rcases List.mem_cons.mp hm with e | hm
      · exact h1 e.symm
      · exact ih false hm

theorem replaceTabs_eq_self (inRun : Bool) (s : List Char) (h : '\t' ∉ s) :
    replaceTabs inRun s = s := by
  induction s generalizing inRun with
  | nil => rfl
  | cons c cs ih =>
    have hc : c ≠ '\t' := fun e => h (e ▸ List.mem_cons_self _ _)
    have hcs : '\t' ∉ cs := fun e => h (List.mem_cons_of_mem _ e)
    unfold replaceTabs
    rw [if_neg hc, ih false hcs]

theorem replaceMultiSpaces_mem (inRun : Bool) (s : List Char) (c : Char)
    (h : c ∈ replaceMultiSpaces inRun s) : c ∈ s ∨ c = ' ' := by
  induction s generalizing inRun with
  | nil => simp [replaceMultiSpaces] at h
  | cons d ds ih =>
    cases inRun with
    | true =>
      unfold replaceMultiSpaces at h
      split_ifs at h with h1
      · rcases ih true h with h | h
        · exact Or.inl (List.mem_cons_of_mem _ h)
        · exact Or.inr h
      · rcases List.mem_cons.mp h with rfl | h
        · exact Or.inl (List.mem_cons_self _ _)
        · rcases ih false h with h | h
          · exact Or.inl (List.mem_cons_of_mem _ h)
          · exact Or.inr h
    | false =>
      unfold replaceMultiSpaces at h
      split_ifs at h with h1
      · rcases List.mem_cons.mp h with rfl | h
        · exact Or.inr rfl
        · rcases ih true h with h | h
          · exact Or.inl (List.mem_cons_of_mem _ h)
          · exact Or.inr h
      · rcases List.mem_cons.mp h with rfl | h
        · exact Or.inl (List.mem_cons_self _ _)
        · rcases ih false h with h | h
          · exact Or.inl (List.mem_cons_of_mem _ h)
          · exact Or.inr h

/-- After the second replacement no two neighbours are both `\s` characters;
and right after a replaced run comes a character that is not one. -/
theorem replaceMultiSpaces_chain (s : List Char) :
    (List.Chain' (fun a b => ¬ (isReSpace a = true ∧ isReSpace b = true))
        (replaceMultiSpaces true s) ∧
      ∀ c ∈ (replaceMultiSpaces true s).head?, isReSpace c = false) ∧
    List.Chain' (fun a b => ¬ (isReSpace a = true ∧ isReSpace b = true))
      (replaceMultiSpaces false s) := by
  induction s with
  | nil => simp [replaceMultiSpaces]
  | cons c cs ih =>
    obtain ⟨⟨ih1, ih2⟩, ih3⟩ := ih
    refine ⟨?_, ?_⟩
    · unfold replaceMultiSpaces
      split_ifs with h1
      · exact ⟨ih1, ih2⟩
      · have hc : isReSpace c = false := by simpa using h1
        refine ⟨List.chain'_cons'.mpr ⟨fun y _ h => ?_, ih3⟩, ?_⟩
        · rw [hc] at h
          exact Bool.noConfusion h.1
        · intro y hy
          simp only [List.head?_cons, Option.mem_def, Option.some.injEq] at hy
          exact hy ▸ hc
    · unfold replaceMultiSpaces
      split_ifs with h1
      · refine List.chain'_cons'.mpr ⟨fun y hy h => ?_, ih1⟩
        rw [ih2 y hy] at h
        exact Bool.noConfusion h.2
      · refine List.chain'_cons'.mpr ⟨fun y hy h => ?_, ih3⟩
        apply h1
        cases cs with
        | nil => simp [replaceMultiSpaces] at hy
        | cons d ds =>
          by_cases hd : isReSpace d = true
          · simp [h.1, hd]
          · exfalso
            have e : replaceMultiSpaces false (d :: ds) = d :: replaceMultiSpaces false ds := by
              simp [replaceMultiSpaces, hd]
            rw [e] at hy
            simp only [List.head?_cons, Option.mem_def, Option.some.injEq] at hy
            exact hd (hy ▸ h.2)

theorem replaceMultiSpaces_eq_self (s : List Char)
    (h : List.Chain' (fun a b => ¬ (isReSpace a = true ∧ isReSpace b = true)) s) :
    replaceMultiSpaces false s = s := by
  induction s with
  | nil => rfl
  | cons c cs ih =>
    rw [List.chain'_cons'] at h
    unfold replaceMultiSpaces
    rw [if_neg, ih h.2]
    intro hc
    cases cs with
    | nil => simp at hc
    | cons d ds =>
      simp only [Bool.and_eq_true] at hc
      exact h.1 d (by simp) hc

theorem TrimSpace_isInfix (s : List Char) : TrimSpace s <:+: s :=
  (List.rdropWhile_prefix isSpace _).isInfix.trans (List.dropWhile_suffix isSpace).isInfix

theorem TrimSpace_head (s : List Char) : ∀ c ∈ (TrimSpace s).head?, isSpace c = false := by
  intro c hc
  have hne : TrimSpace s ≠ [] := by
    intro he
    rw [he] at hc
    simp at hc
  have hpre : TrimSpace s <+: s.dropWhile isSpace := List.rdropWhile_prefix isSpace _
  have h1 := hpre.head hne
  have h2 := List.head_dropWhile_not isSpace s (hpre.ne_nil hne)
  rw [List.head?_eq_head hne] at hc
  simp only [Option.mem_def, Option.some.injEq] at hc
  rw [← hc, h1]
  exact h2

theorem TrimSpace_getLast (s : List Char) :
    ∀ c ∈ (TrimSpace s).getLast?, isSpace c = false := by
  intro c hc
  have hne : TrimSpace s ≠ [] := by
    intro he
    rw [he] at hc
    simp at hc
  have h := List.rdropWhile_last_not (p := isSpace) (l := s.dropWhile isSpace) hne
  rw [List.getLast?_eq_getLast _ hne] at hc
  simp only [Option.mem_def, Option.some.injEq] at hc
  rw [← hc]
  simpa using h

theorem TrimSpace_eq_self (s : List Char) (h1 : ∀ c ∈ s.head?, isSpace c = false)
    (h2 : ∀ c ∈ s.getLast?, isSpace c = false) : TrimSpace s = s := by
  cases s with
  | nil => rfl
  | cons c cs =>
    have hc : isSpace c = false := h1 c (by simp)
    have e : (c :: cs).dropWhile isSpace = c :: cs := by simp [List.dropWhile, hc]
    unfold TrimSpace
    rw [e, List.rdropWhile_eq_self_iff]
    intro hl
    have := h2 _ (List.getLast_mem_getLast? hl)
    simp [this]

/-- The output of `sanitizeInput`: no tab, no two neighbouring `\s`
characters, no whitespace at either end. -/
theorem sanitizeInput_shape (x : List Char) :
    '\t' ∉ sanitizeInput x ∧
      List.Chain' (fun a b => ¬ (isReSpace a = true ∧ isReSpace b = true)) (sanitizeInput x) ∧
      (∀ c ∈ (sanitizeInput x).head?, isSpace c = false) ∧
      (∀ c ∈ (sanitizeInput x).getLast?, isSpace c = false) := by
  unfold sanitizeInput
  simp only
  refine ⟨?_, ?_, TrimSpace_head _, TrimSpace_getLast _⟩
  · intro hm
    have h1 := (TrimSpace_isInfix _).subset hm
    rcases replaceMultiSpaces_mem false _ _ h1 with h | h
    · exact replaceTabs_no_tab false x h
    · exact absurd h (by decide)
  · exact List.Chain'.infix (replaceMultiSpaces_chain _).2 (TrimSpace_isInfix _)

theorem sanitizeInput_idem (x : List Char) :
    sanitizeInput (sanitizeInput x) = sanitizeInput x := by
  obtain ⟨h1, h2, h3, h4⟩ := sanitizeInput_shape x
  generalize sanitizeInput x = y at h1 h2 h3 h4
  unfold sanitizeInput
  simp only
  rw [replaceTabs_eq_self false y h1, replaceMultiSpaces_eq_self y h2, TrimSpace_eq_self y h3 h4]

/-- C17: the output of `sanitizeInput` holds no tab and no two consecutive
spaces, neither begins nor ends with a space, and is left unchanged by a
second call. -/
theorem sanitizeInput_normal_form (x : List Char) :
    '\t' ∉ sanitizeInput x ∧
      ¬ ([' ', ' '] <:+: sanitizeInput x) ∧
      (sanitizeInput x).head? ≠ some ' ' ∧
      (sanitizeInput x).getLast? ≠ some ' ' ∧
      sanitizeInput (sanitizeInput x) = sanitizeInput x := by
  obtain ⟨h1, h2, h3, h4⟩ := sanitizeInput_shape x
  refine ⟨h1, ?_, ?_, ?_, sanitizeInput_idem x⟩
  · intro hin
    have hc := List.Chain'.infix h2 hin
    rw [List.chain'_cons] at hc
    exact hc.1 ⟨by decide, by decide⟩
  · intro he
    exact absurd (h3 ' ' he) (by decide)
  · intro he
    exact absurd (h4 ' ' he) (by decide)

/-! ## `parseInput` -/

theorem Split_head_nil_iff (s : List Char) (sep : Char) (p : List Char)
    (ps : List (List Char)) (h : Split s sep = p :: ps) :
    p = [] ↔ s = [] ∨ s.head? = some sep := by
  cases s with
  | nil =>
    simp only [Split, List.cons.injEq] at h
    simp [h.1.symm]
  | cons c cs =>
    by_cases hc : c = sep
    · simp only [Split, if_pos hc, List.cons.injEq] at h
      simp [h.1.symm, hc]
    · cases hsp : Split cs sep with
      | nil => exact absurd hsp (Split_ne_nil cs sep)
      | cons q qs =>
        simp only [Split, if_neg hc, hsp, List.cons.injEq] at h
        simp [h.1.symm, hc]

theorem getLast?_cons_of_ne_nil (c : Char) (cs : List Char) (h : cs ≠ []) :
    (c :: cs).getLast? = cs.getLast? := by
  obtain ⟨d, ds, rfl⟩ := List.exists_cons_of_ne_nil h
  exact List.getLast?_cons_cons

/-- In a text that does not end with the separator and has no two
neighbouring separators, every piece after the first is non-empty. -/
theorem Split_tail_ne_nil (s : List Char) (sep : Char) (hlast : s.getLast? ≠ some sep)
    (hadj : List.Chain' (fun a b => ¬ (a = sep ∧ b = sep)) s) :
    ∀ seg ∈ (Split s sep).tail, seg ≠ [] := by
  induction s with
  | nil => simp [Split]
  | cons c cs ih =>
    rw [List.chain'_cons'] at hadj
    have ihc : cs ≠ [] → ∀ seg ∈ (Split cs sep).tail, seg ≠ [] := by
      intro hne
      apply ih _ hadj.2
      rw [← getLast?_cons_of_ne_nil c cs hne]
      exact hlast
    by_cases hc : c = sep
    · have hne : cs ≠ [] := by
        intro he
        subst he
        exact hlast (by simp [hc])
      simp only [Split, if_pos hc, List.tail_cons]
      intro seg hseg
      cases hsp : Split cs sep with
      | nil => exact absurd hsp (Split_ne_nil cs sep)
      | cons q qs =>
        rw [hsp] at hseg
        rcases List.mem_cons.mp hseg with rfl | hseg
        · intro hq
          rcases (Split_head_nil_iff cs sep seg qs hsp).mp hq with h | h
          · exact hne h
          · exact hadj.1 sep h ⟨hc, rfl⟩
        · have := ihc hne seg
          rw [hsp] at this
          exact this hseg
    · cases hsp : Split cs sep with
      | nil => exact absurd hsp (Split_ne_nil cs sep)
      | cons q qs =>
        simp only [Split, if_neg hc, hsp, List.tail_cons]
        intro seg hseg
        by_cases hne : cs = []
        · subst hne
          simp only [Split, List.cons.injEq] at hsp
          rw [← hsp.2] at hseg
          simp at hseg
        · have := ihc hne seg
          rw [hsp] at this
          exact this hseg

/-- The pieces of a non-empty text that neither begins nor ends with the
separator and has no two neighbouring separators are all non-empty. -/
theorem Split_all_ne_nil (s : List Char) (sep : Char) (hne : s ≠ [])
    (hhead : s.head? ≠ some sep) (hlast : s.getLast? ≠ some sep)
    (hadj : List.Chain' (fun a b => ¬ (a = sep ∧ b = sep)) s) :
    ∀ seg ∈ Split s sep, seg ≠ [] := by
  intro seg hseg
  cases hsp : Split s sep with
  | nil => exact absurd hsp (Split_ne_nil s sep)
  | cons p ps =>
    rw [hsp] at hseg
    rcases List.mem_cons.mp hseg with rfl | hseg
    · intro hp
      rcases (Split_head_nil_iff s sep seg ps hsp).mp hp with h | h
      · exact hne h
      · exact hhead h
    · have := Split_tail_ne_nil s sep hlast hadj seg
      rw [hsp] at this
      exact this hseg

/-- When the sanitized line has more than one piece, no piece is empty. -/
theorem sanitizeInput_segments_ne_nil (line : List Char)
    (h : (Split (sanitizeInput line) ' ').length ≠ 1) :
    ∀ seg ∈ Split (sanitizeInput line) ' ', seg ≠ [] := by
  obtain ⟨_, h2, h3, h4⟩ := sanitizeInput_shape line
  apply Split_all_ne_nil
  · intro he
    rw [he] at h
    exact h rfl
  · intro he
    exact absurd (h3 ' ' he) (by decide)
  · intro he
    exact absurd (h4 ' ' he) (by decide)
  · apply h2.imp
    rintro a b hab ⟨rfl, rfl⟩
    exact hab ⟨by decide, by decide⟩

theorem length_six (l : List (List Char)) (h : l.length = 6) :
    ∃ s1 s2 s3 s4 s5 s6, l = [s1, s2, s3, s4, s5, s6] := by
  match l, h with
  | [s1, s2, s3, s4, s5, s6], _ => exact ⟨s1, s2, s3, s4, s5, s6, rfl⟩

/-- On a line of six pieces `parseInput` looks the command up and then parses
the five time fields. -/
theorem parseInput_six (fs : FileSystem) (line s1 s2 s3 s4 s5 s6 : List Char)
    (hs : Split (sanitizeInput line) ' ' = [s1, s2, s3, s4, s5, s6]) :
    s6 ≠ [] ∧
      parseInput fs line =
        match fs s6 with
        | some errno => .error (.returned (.stat s6 errno))
        | none => parseFields s6 [s1, s2, s3, s4, s5, s6] := by
  have h6 : s6 ≠ [] := by
    apply sanitizeInput_segments_ne_nil line (by rw [hs]; simp) s6
    rw [hs]
    simp
  refine ⟨h6, ?_⟩
  have hl : s6.length ≠ 0 := fun h => h6 (List.length_eq_zero.mp h)
  unfold parseInput
  simp only [hs, List.length_cons, List.length_nil, ne_eq, not_true_eq_false, ↓reduceIte,
    List.getD_cons_succ, List.getD_cons_zero, hl]

theorem parseInput_count (fs : FileSystem) (line : List Char)
    (h : (Split (sanitizeInput line) ' ').length ≠ 6) :
    parseInput fs line =
      .error (.returned (.fieldCount (Split (sanitizeInput line) ' ').length)) := by
  unfold parseInput
  simp only [ne_eq, h, not_false_eq_true, ↓reduceIte]

theorem parseFields_error (command s1 s2 s3 s4 s5 s6 : List Char) (f : Failure)
    (h : firstFieldFailure s1 s2 s3 s4 s5 = some f) :
    parseFields command [s1, s2, s3, s4, s5, s6] = .error f := by
  unfold firstFieldFailure at h
  unfold parseFields
  simp only [List.getD_cons_succ, List.getD_cons_zero]
  cases h1 : parseTimeField s1 MinutesField <;> rw [h1] at h <;> simp only at h ⊢
  · exact congrArg _ (Option.some.inj h)
  cases h2 : parseTimeField s2 HoursField <;> rw [h2] at h <;> simp only at h ⊢
  · exact congrArg _ (Option.some.inj h)
  cases h3 : parseTimeField s3 MonthDaysField <;> rw [h3] at h <;> simp only at h ⊢
  · exact congrArg _ (Option.some.inj h)
  cases h4 : parseTimeField s4 MonthsField <;> rw [h4] at h <;> simp only at h ⊢
  · exact congrArg _ (Option.some.inj h)
  cases h5 : parseTimeField s5 WeekDaysField <;> rw [h5] at h <;> simp only at h ⊢
  · exact congrArg _ (Option.some.inj h)
  · exact Option.noConfusion h

theorem parseFields_ok (command s1 s2 s3 s4 s5 s6 : List Char) (a b c d e : List Int)
    (h1 : parseTimeField s1 MinutesField = .ok a) (h2 : parseTimeField s2 HoursField = .ok b)
    (h3 : parseTimeField s3 MonthDaysField = .ok c)
    (h4 : parseTimeField s4 MonthsField = .ok d)
    (h5 : parseTimeField s5 WeekDaysField = .ok e) :
    parseFields command [s1, s2, s3, s4, s5, s6] =
      .ok { Command := command, Minutes := a, Hours := b, MonthDays := c, Months := d,
            WeekDays := e } := by
  unfold parseFields
  simp only [List.getD_cons_succ, List.getD_cons_zero, h1, h2, h3, h4, h5]

theorem parseFields_ok_inv (command s1 s2 s3 s4 s5 s6 : List Char) (ct : CronTab)
    (h : parseFields command [s1, s2, s3, s4, s5, s6] = .ok ct) :
    parseTimeField s1 MinutesField = .ok ct.Minutes ∧
      parseTimeField s2 HoursField = .ok ct.Hours ∧
      parseTimeField s3 MonthDaysField = .ok ct.MonthDays ∧
      parseTimeField s4 MonthsField = .ok ct.Months ∧
      parseTimeField s5 WeekDaysField = .ok ct.WeekDays ∧ ct.Command = command := by
  unfold parseFields at h
  simp only [List.getD_cons_succ, List.getD_cons_zero] at h
  cases h1 : parseTimeField s1 MinutesField <;> rw [h1] at h <;> simp only at h
  · exact Except.noConfusion h
  cases h2 : parseTimeField s2 HoursField <;> rw [h2] at h <;> simp only at h
  · exact Except.noConfusion h
  cases h3 : parseTimeField s3 MonthDaysField <;> rw [h3] at h <;> simp only at h
  · exact Except.noConfusion h
  cases h4 : parseTimeField s4 MonthsField <;> rw [h4] at h <;> simp only at h
  · exact Except.noConfusion h
  cases h5 : parseTimeField s5 WeekDaysField <;> rw [h5] at h <;> simp only at h
  · exact Except.noConfusion h
  simp only [Except.ok.injEq] at h
  subst h
  exact ⟨rfl, rfl, rfl, rfl, rfl, rfl⟩

theorem firstFieldFailure_none_iff (s1 s2 s3 s4 s5 : List Char) :
    firstFieldFailure s1 s2 s3 s4 s5 = none ↔
      ∃ a b c d e, parseTimeField s1 MinutesField = .ok a ∧
        parseTimeField s2 HoursField = .ok b ∧ parseTimeField s3 MonthDaysField = .ok c ∧
        parseTimeField s4 MonthsField = .ok d ∧ parseTimeField s5 WeekDaysField = .ok e := by
  unfold firstFieldFailure
  cases parseTimeField s1 MinutesField <;> cases parseTimeField s2 HoursField <;>
    cases parseTimeField s3 MonthDaysField <;> cases parseTimeField s4 MonthsField <;>
    cases parseTimeField s5 WeekDaysField <;> simp

theorem getValidRange_error (fieldType : CronField) (e : CronError)
    (h : getValidRange fieldType = .error e) : e = .invalidFieldType := by
  unfold getValidRange at h
  split_ifs at h
  exact (Except.error.inj h).symm

/-- A failure of `parseTimeField` is none of the error values of `parseInput`. -/
theorem parseTimeField_failure (input : List Char) (fieldType : CronField) (f : Failure)
    (h : parseTimeField input fieldType = .error f) : isFieldFailure f = true := by
  cases hr : getValidRange fieldType with
  | error e =>
    have he := getValidRange_error fieldType e hr
    subst he
    unfold parseTimeField at h
    simp only [hr] at h
    rw [← Except.error.inj h]
    rfl
  | ok vr =>
    obtain ⟨lo, hi⟩ := vr
    rw [parseTimeField_eq input fieldType lo hi hr] at h
    rcases expandIntervals_acc lo hi (validRange_le fieldType lo hi hr) (Split input ',') with
      ⟨e, he, h1⟩ | ⟨vals, _, h1⟩
    · rw [h1] at h
      simp only at h
      rw [← Except.error.inj h]
      exact he
    · rw [h1] at h
      exact Except.noConfusion h

theorem firstFieldFailure_some (s1 s2 s3 s4 s5 : List Char) (f : Failure)
    (h : firstFieldFailure s1 s2 s3 s4 s5 = some f) : isFieldFailure f = true := by
  unfold firstFieldFailure at h
  cases h1 : parseTimeField s1 MinutesField <;> rw [h1] at h <;> simp only at h
  · exact parseTimeField_failure _ _ f (by rw [h1, Option.some.inj h])
  cases h2 : parseTimeField s2 HoursField <;> rw [h2] at h <;> simp only at h
  · exact parseTimeField_failure _ _ f (by rw [h2, Option.some.inj h])
  cases h3 : parseTimeField s3 MonthDaysField <;> rw [h3] at h <;> simp only at h
  · exact parseTimeField_failure _ _ f (by rw [h3, Option.some.inj h])
  cases h4 : parseTimeField s4 MonthsField <;> rw [h4] at h <;> simp only at h
  · exact parseTimeField_failure _ _ f (by rw [h4, Option.some.inj h])
  cases h5 : parseTimeField s5 WeekDaysField <;> rw [h5] at h <;> simp only at h
  · exact parseTimeField_failure _ _ f (by rw [h5, Option.some.inj h])
  · exact Option.noConfusion h

theorem parseFields_failure (command s1 s2 s3 s4 s5 s6 : List Char) (f : Failure)
    (h : parseFields command [s1, s2, s3, s4, s5, s6] = .error f) :
    isFieldFailure f = true := by
  cases hf : firstFieldFailure s1 s2 s3 s4 s5 with
  | none =>
    obtain ⟨a, b, c, d, e, h1, h2, h3, h4, h5⟩ :=
      (firstFieldFailure_none_iff s1 s2 s3 s4 s5).mp hf
    rw [parseFields_ok command s1 s2 s3 s4 s5 s6 a b c d e h1 h2 h3 h4 h5] at h
    exact Except.noConfusion h
  | some f2 =>
    rw [parseFields_error command s1 s2 s3 s4 s5 s6 f2 hf] at h
    rw [← Except.error.inj h]
    exact firstFieldFailure_some s1 s2 s3 s4 s5 f2 hf

/-- The three ways in which a call of `parseInput` ends. -/
theorem parseInput_cases (fs : FileSystem) (line : List Char) :
    ((Split (sanitizeInput line) ' ').length ≠ 6 ∧
        parseInput fs line =
          .error (.returned (.fieldCount (Split (sanitizeInput line) ' ').length))) ∨
      ∃ s1 s2 s3 s4 s5 s6, Split (sanitizeInput line) ' ' = [s1, s2, s3, s4, s5, s6] ∧
        ((∃ errno, fs s6 = some errno ∧
            parseInput fs line = .error (.returned (.stat s6 errno))) ∨
          (fs s6 = none ∧ parseInput fs line = parseFields s6 [s1, s2, s3, s4, s5, s6])) := by
  by_cases hl : (Split (sanitizeInput line) ' ').length = 6
  · right
    obtain ⟨s1, s2, s3, s4, s5, s6, hs⟩ := length_six _ hl
    refine ⟨s1, s2, s3, s4, s5, s6, hs, ?_⟩
    have h := (parseInput_six fs line s1 s2 s3 s4 s5 s6 hs).2
    cases hf : fs s6 with
    | none =>
      rw [hf] at h
      exact Or.inr ⟨rfl, h⟩
    | some errno =>
      rw [hf] at h
      exact Or.inl ⟨errno, rfl, h⟩
  · exact Or.inl ⟨hl, parseInput_count fs line hl⟩

/-- On a line whose sanitized text has the six pieces `s1 ... s6`, the sixth
naming an existing file, `parseInput` succeeds exactly when `parseTimeField`
succeeds on `s1 ... s5` under the kinds minute, hour, day of month, month,
day of week, and the `CronTab` then holds those five results and `s6` as
command. When the first field that does not parse fails with an error value,
`parseInput` returns that error value; when it fails with the divide-by-zero
panic of a zero step, the call of `parseInput` panics and returns nothing. -/
theorem parseInput_fields (fs : FileSystem) (line s1 s2 s3 s4 s5 s6 : List Char)
    (hs : Split (sanitizeInput line) ' ' = [s1, s2, s3, s4, s5, s6]) (hf : fs s6 = none) :
    ((∃ ct, parseInput fs line = .ok ct) ↔
        ∃ a b c d e, parseTimeField s1 MinutesField = .ok a ∧
          parseTimeField s2 HoursField = .ok b ∧ parseTimeField s3 MonthDaysField = .ok c ∧
          parseTimeField s4 MonthsField = .ok d ∧ parseTimeField s5 WeekDaysField = .ok e) ∧
      (∀ a b c d e, parseTimeField s1 MinutesField = .ok a →
        parseTimeField s2 HoursField = .ok b → parseTimeField s3 MonthDaysField = .ok c →
        parseTimeField s4 MonthsField = .ok d → parseTimeField s5 WeekDaysField = .ok e →
        parseInput fs line =
          .ok { Command := s6, Minutes := a, Hours := b, MonthDays := c, Months := d,
                WeekDays := e }) ∧
      (∀ e, firstFieldFailure s1 s2 s3 s4 s5 = some (.returned e) →
        parseInput fs line = .error (.returned e)) ∧
      (firstFieldFailure s1 s2 s3 s4 s5 = some .panicDivideByZero →
        parseInput fs line = .error .panicDivideByZero) := by
  have hp : parseInput fs line = parseFields s6 [s1, s2, s3, s4, s5, s6] := by
    rw [(parseInput_six fs line s1 s2 s3 s4 s5 s6 hs).2, hf]
  refine ⟨⟨?_, ?_⟩, ?_, ?_, ?_⟩
  · rintro ⟨ct, hct⟩
    rw [hp] at hct
    obtain ⟨h1, h2, h3, h4, h5, _⟩ := parseFields_ok_inv s6 s1 s2 s3 s4 s5 s6 ct hct
    exact ⟨_, _, _, _, _, h1, h2, h3, h4, h5⟩
  · rintro ⟨a, b, c, d, e, h1, h2, h3, h4, h5⟩
    exact ⟨_, hp.trans (parseFields_ok s6 s1 s2 s3 s4 s5 s6 a b c d e h1 h2 h3 h4 h5)⟩
  · intro a b c d e h1 h2 h3 h4 h5
    exact hp.trans (parseFields_ok s6 s1 s2 s3 s4 s5 s6 a b c d e h1 h2 h3 h4 h5)
  · intro e hfail
    exact hp.trans (parseFields_error s6 s1 s2 s3 s4 s5 s6 _ hfail)
  · intro hfail
    exact hp.trans (parseFields_error s6 s1 s2 s3 s4 s5 s6 _ hfail)

/-- The first line of `TestFullParsing`, with `/usr/bin/find` an existing
file, and a line whose hour field is above its domain. -/
theorem parseInput_fields_examples :
    parseInput (fun _ => none) "*/15 0 1,15 * 1-5 /usr/bin/find".toList =
        .ok { Command := "/usr/bin/find".toList, Minutes := [0, 15, 30, 45], Hours := [0],
              MonthDays := [1, 15], Months := [1, 2, 3, 4, 5, 6, 7, 8, 9, 10, 11, 12],
              WeekDays := [1, 2, 3, 4, 5] } ∧
      parseInput (fun _ => none) "*/15 24 32 * 1-5 /usr/bin/find".toList =
        .error (.returned (.valueMax 24 23)) :=
  ⟨(parseInput_fields (fun _ => none) "*/15 0 1,15 * 1-5 /usr/bin/find".toList
      "*/15".toList "0".toList "1,15".toList "*".toList "1-5".toList "/usr/bin/find".toList
      (by decide) rfl).2.1 _ _ _ _ _ (by decide) (by decide) (by decide) (by decide)
      (by decide),
    (parseInput_fields (fun _ => none) "*/15 24 32 * 1-5 /usr/bin/find".toList
      "*/15".toList "24".toList "32".toList "*".toList "1-5".toList "/usr/bin/find".toList
      (by decide) rfl).2.2.1 _ (by decide)⟩

/-- C13 (the code departs from it): on a six-piece line whose command exists
and whose time fields do not all parse, `parseInput` is claimed to return the
error of the first field that fails. On `*/0 99 * * * /usr/bin/find` the
minute field is the first that fails, and it fails with the divide-by-zero
panic of the zero step: `parseInput` returns no error value at all, not even
the value error that the hour field `99` would give. -/
theorem zero_step_field_makes_parseInput_panic :
    Split (sanitizeInput "*/0 99 * * * /usr/bin/find".toList) ' ' =
        ["*/0".toList, "99".toList, "*".toList, "*".toList, "*".toList,
          "/usr/bin/find".toList] ∧
      parseTimeField "*/0".toList MinutesField = .error .panicDivideByZero ∧
      parseTimeField "99".toList HoursField = .error (.returned (.valueMax 99 23)) ∧
      parseInput (fun _ => none) "*/0 99 * * * /usr/bin/find".toList =
        .error .panicDivideByZero ∧
      ∀ e, parseInput (fun _ => none) "*/0 99 * * * /usr/bin/find".toList ≠
        .error (.returned e) := by
  have h : parseInput (fun _ => none) "*/0 99 * * * /usr/bin/find".toList =
      .error .panicDivideByZero := by decide
  refine ⟨by decide, by decide, by decide, h, ?_⟩
  intro e he
  rw [h] at he
  exact Failure.noConfusion (Except.error.inj he)

/-- C14, as stated, fails: with a command that does not exist and a minute
field that does not parse, `parseInput` returns the error of the command
lookup, not the error of the minute field. -/
theorem missing_command_hides_invalid_minute :
    Split (sanitizeInput "99 * * * * /x".toList) ' ' =
        ["99".toList, "*".toList, "*".toList, "*".toList, "*".toList, "/x".toList] ∧
      parseTimeField "99".toList MinutesField = .error (.returned (.valueMax 99 59)) ∧
      parseInput (fun _ => some 2) "99 * * * * /x".toList =
        .error (.returned (.stat "/x".toList 2)) ∧
      parseInput (fun _ => some 2) "99 * * * * /x".toList ≠
        .error (.returned (.valueMax 99 59)) := by
  refine ⟨by decide, by decide, by decide, by decide⟩

/-- C14, amended: on a line of six pieces the command is looked up before the
time fields are parsed. When the lookup fails, its error is returned whatever
the time fields are; when it succeeds and the first time field that does not
parse, in the order minute, hour, day of month, month, day of week, fails
with an error value, that error value is returned. -/
theorem command_checked_before_fields (fs : FileSystem) (line s1 s2 s3 s4 s5 s6 : List Char)
    (hs : Split (sanitizeInput line) ' ' = [s1, s2, s3, s4, s5, s6]) :
    (∀ errno, fs s6 = some errno →
        parseInput fs line = .error (.returned (.stat s6 errno))) ∧
      (fs s6 = none → ∀ e, firstFieldFailure s1 s2 s3 s4 s5 = some (.returned e) →
        parseInput fs line = .error (.returned e)) := by
  have hp := (parseInput_six fs line s1 s2 s3 s4 s5 s6 hs).2
  constructor
  · intro errno hf
    rw [hp, hf]
  · intro hf e hfail
    rw [hp, hf]
    exact parseFields_error s6 s1 s2 s3 s4 s5 s6 _ hfail

theorem command_checked_before_fields_witness :
    parseInput (fun _ => some 2) "99 * * * * /x".toList =
        .error (.returned (.stat "/x".toList 2)) ∧
      parseInput (fun _ => none) "0 24 0 13 8 /x".toList =
        .error (.returned (.valueMax 24 23)) :=
  ⟨(command_checked_before_fields (fun _ => some 2) "99 * * * * /x".toList "99".toList
      "*".toList "*".toList "*".toList "*".toList "/x".toList (by decide)).1 2 rfl,
    (command_checked_before_fields (fun _ => none) "0 24 0 13 8 /x".toList "0".toList
      "24".toList "0".toList "13".toList "8".toList "/x".toList (by decide)).2 rfl _
      (by decide)⟩

/-- C15: `parseInput` fails with the field-count error reporting `k` exactly
when the sanitized line splits on single spaces into `k` pieces and `k` is
not 6; in particular a line of five pieces fails reporting 5, whatever the
file system, the fields and the command are. -/
theorem field_count_error_iff (fs : FileSystem) (line : List Char) (k : Nat) :
    (parseInput fs line = .error (.returned (.fieldCount k)) ↔
        (Split (sanitizeInput line) ' ').length = k ∧ k ≠ 6) ∧
      ((Split (sanitizeInput line) ' ').length = 5 →
        parseInput fs line = .error (.returned (.fieldCount 5))) := by
  constructor
  · constructor
    · intro h
      rcases parseInput_cases fs line with ⟨hl, hp⟩ |
        ⟨s1, s2, s3, s4, s5, s6, hs, ⟨errno, _, hp⟩ | ⟨_, hp⟩⟩
      · rw [hp] at h
        simp only [Except.error.injEq, Failure.returned.injEq, CronError.fieldCount.injEq] at h
        exact ⟨h, h ▸ hl⟩
      · rw [hp] at h
        simp at h
      · rw [hp] at h
        have := parseFields_failure s6 s1 s2 s3 s4 s5 s6 _ h
        exact Bool.noConfusion this
    · rintro ⟨hk, h6⟩
      subst hk
      exact parseInput_count fs line h6
  · intro h5
    have := parseInput_count fs line (by rw [h5]; decide)
    rw [h5] at this
    exact this

theorem field_count_error_iff_witness :
    parseInput (fun _ => none) "5,25,55 */7 1-6 * /usr/bin/find".toList =
      .error (.returned (.fieldCount 5)) :=
  (field_count_error_iff (fun _ => none) "5,25,55 */7 1-6 * /usr/bin/find".toList 5).2
    (by decide)

/-- C16: a successful result of `parseTimeField` is never empty, the folding
for the week days included; hence the five fields of every `CronTab` that
`parseInput` returns are non-empty. -/
theorem expanded_fields_nonempty (input : List Char) (fieldType : CronField) (r : List Int)
    (h : parseTimeField input fieldType = .ok r) :
    r ≠ [] ∧
      ∀ fs line ct, parseInput fs line = .ok ct →
        ct.Minutes ≠ [] ∧ ct.Hours ≠ [] ∧ ct.MonthDays ≠ [] ∧ ct.Months ≠ [] ∧
          ct.WeekDays ≠ [] := by
  refine ⟨parseTimeField_ne_nil input fieldType r h, ?_⟩
  intro fs line ct hct
  rcases parseInput_cases fs line with ⟨_, hp⟩ |
    ⟨s1, s2, s3, s4, s5, s6, _, ⟨errno, _, hp⟩ | ⟨_, hp⟩⟩
  · rw [hp] at hct
    exact Except.noConfusion hct
  · rw [hp] at hct
    exact Except.noConfusion hct
  · rw [hp] at hct
    obtain ⟨h1, h2, h3, h4, h5, _⟩ := parseFields_ok_inv s6 s1 s2 s3 s4 s5 s6 ct hct
    exact ⟨parseTimeField_ne_nil _ _ _ h1, parseTimeField_ne_nil _ _ _ h2,
      parseTimeField_ne_nil _ _ _ h3, parseTimeField_ne_nil _ _ _ h4,
      parseTimeField_ne_nil _ _ _ h5⟩

theorem expanded_fields_nonempty_witness :
    ([7] : List Int) ≠ [] ∧
      (([0] : List Int) ≠ [] ∧ ([0] : List Int) ≠ [] ∧ ([1] : List Int) ≠ [] ∧
        ([1] : List Int) ≠ [] ∧ ([7] : List Int) ≠ []) :=
  have h := expanded_fields_nonempty "0,7".toList WeekDaysField [7] (by decide)
  ⟨h.1, h.2 (fun _ => none) "0 0 1 1 0,7 /x".toList
    { Command := "/x".toList, Minutes := [0], Hours := [0], MonthDays := [1], Months := [1],
      WeekDays := [7] } (by decide)⟩

/-- C20: when the sanitized line splits on single spaces into exactly six
pieces, none of them is empty, the sixth (the command) in particular; so the
test `len(ct.Command) == 0` is never true and `parseInput` never returns the
empty-command error. -/
theorem empty_command_unreachable (fs : FileSystem) (line : List Char) :
    ((Split (sanitizeInput line) ' ').length = 6 →
        (∀ seg ∈ Split (sanitizeInput line) ' ', seg ≠ []) ∧
          ((Split (sanitizeInput line) ' ').getD 5 []).length ≠ 0) ∧
      parseInput fs line ≠ .error (.returned .emptyCommand) := by
  constructor
  · intro hl
    have hall := sanitizeInput_segments_ne_nil line (by rw [hl]; decide)
    refine ⟨hall, ?_⟩
    obtain ⟨s1, s2, s3, s4, s5, s6, hs⟩ := length_six _ hl
    intro h0
    apply hall s6
    · rw [hs]
      simp
    · rw [hs] at h0
      simp only [List.getD_cons_succ, List.getD_cons_zero] at h0
      exact List.length_eq_zero.mp h0
  · intro h
    rcases parseInput_cases fs line with ⟨_, hp⟩ |
      ⟨s1, s2, s3, s4, s5, s6, _, ⟨errno, _, hp⟩ | ⟨_, hp⟩⟩
    · rw [hp] at h
      simp at h
    · rw [hp] at h
      simp at h
    · rw [hp] at h
      have := parseFields_failure s6 s1 s2 s3 s4 s5 s6 _ h
      exact Bool.noConfusion this

theorem empty_command_unreachable_witness :
    ∀ seg ∈ Split (sanitizeInput "  0 0\t\t1 1   0 /x \t".toList) ' ', seg ≠ [] :=
  ((empty_command_unreachable (fun _ => none) "  0 0\t\t1 1   0 /x \t".toList).1
    (by decide)).1

end CronParser
